import Mathlib

/-!
Verification of the schema-recovery and data-quality core of the water-treatment
report tool (`src/app.py`).

Strings are modelled as `List Char` and the Python string operations used by the
source (`strip`, `lower`, `replace`, substring test `in`) are given as explicit
executable functions.  Numbers recovered from text are modelled as exact
rationals `ℚ`.  Timestamps (pandas datetimes) are modelled as a calendar day
number together with a time-of-day component.
-/

set_option autoImplicit false
set_option maxRecDepth 40000

namespace WaterReport

/-- A pandas timestamp: calendar day number plus a time-of-day component
(`tod = 0` means midnight, i.e. a pure calendar date). -/
structure TS where
  day : Nat
  tod : Nat
deriving DecidableEq

/-- Ordering of timestamps: lexicographic on (day, time-of-day). -/
def tsLeB (a b : TS) : Bool :=
  decide (a.day < b.day) || (decide (a.day = b.day) && decide (a.tod ≤ b.tod))

/-- An untyped cell value, as held by a pandas DataFrame: a string, a number,
a missing value (NaN), or a datetime (only after date coercion). -/
inductive Val where
  | vstr (s : List Char)
  | vnum (q : ℚ)
  | vna
  | vts (t : TS)
deriving DecidableEq

/-- Python `str.strip()`: drop whitespace from both ends. -/
def pyStrip (s : List Char) : List Char :=
  ((s.dropWhile Char.isWhitespace).reverse.dropWhile Char.isWhitespace).reverse

/-- Python `str.lower()`: lowercase every character. -/
def pyLower (s : List Char) : List Char :=
  s.map Char.toLower

/-- Worker for `pyReplace`, structurally recursive on a fuel bound (the fuel is
always at least the length of the list, so the `0` case is never reached). -/
def pyReplaceF (pat repl : List Char) : Nat → List Char → List Char
  | _, [] => []
  | 0, l => l
  | fuel + 1, c :: cs =>
    if pat ≠ [] ∧ pat.isPrefixOf (c :: cs) then
      repl ++ pyReplaceF pat repl fuel (cs.drop (pat.length - 1))
    else
      c :: pyReplaceF pat repl fuel cs

/-- Python `str.replace(pat, repl)`: replace every non-overlapping occurrence of
`pat`, scanning left to right. -/
def pyReplace (pat repl : List Char) (l : List Char) : List Char :=
  pyReplaceF pat repl l.length l

/-- Python substring test `pat in s`. -/
def isSubstrB (pat : List Char) : List Char → Bool
  | [] => pat.isEmpty
  | c :: cs => pat.isPrefixOf (c :: cs) || isSubstrB pat cs

/-- Numeric value of a digit string (most significant first). -/
def digitsVal (ds : List Char) : Nat :=
  ds.foldl (fun a c => 10 * a + (c.toNat - 48)) 0

/-- Value of a decimal number given its integer digits and fraction digits. -/
def decVal (intDs fracDs : List Char) : ℚ :=
  (digitsVal intDs : ℚ) + (digitsVal fracDs : ℚ) / (10 ^ fracDs.length)

/-- Parse an unsigned decimal literal (`digits`, `digits.digits`, `digits.`,
`.digits`); the whole input must be consumed. -/
def parseUnsigned (t : List Char) : Option ℚ :=
  let ds := t.takeWhile Char.isDigit
  let r1 := t.dropWhile Char.isDigit
  match r1 with
  | [] => if ds.isEmpty then none else some (digitsVal ds)
  | '.' :: r2 =>
    let fs := r2.takeWhile Char.isDigit
    let r3 := r2.dropWhile Char.isDigit
    if r3.isEmpty && !(ds.isEmpty && fs.isEmpty) then some (decVal ds fs) else none
  | _ => none

/-- Numeric coercion of a string, as performed by Python `float` /
`pd.to_numeric` on plain decimal literals (scientific notation and other exotic
forms are out of scope for this source's data).  Leading/trailing whitespace is
ignored; an optional sign is accepted; anything else fails. -/
def parseFloat? (s : List Char) : Option ℚ :=
  match pyStrip s with
  | '-' :: t => (parseUnsigned t).map (fun q => -q)
  | '+' :: t => parseUnsigned t
  | t => parseUnsigned t

/-- `pd.to_numeric(v, errors='coerce')` on a single cell: numbers pass through,
numeric strings are parsed, everything else becomes missing. -/
def to_numeric : Val → Option ℚ
  | .vnum q => some q
  | .vstr s => parseFloat? s
  | .vna => none
  | .vts _ => none

/-- Decimal rendering of a rational, used only as the `str()` text form of a
numeric cell; it contains only digits and the characters `-` and `/`. -/
def ratStr (q : ℚ) : List Char :=
  (if q.num < 0 then ['-'] else []) ++
    Nat.toDigits 10 q.num.natAbs ++ '/' :: Nat.toDigits 10 q.den

/-- The text `nan`, the `str()` form of a missing value. -/
def nanStr : List Char := "nan".data

/-- Python `str(cell)` / pandas `astype(str)` on a cell value. -/
def cellStr : Val → List Char
  | .vstr s => s
  | .vnum q => ratStr q
  | .vna => nanStr
  | .vts t => Nat.toDigits 10 t.day

/-! ## LimitExpressionParser (`parse_limit_string`, src/app.py lines 24-41)

The three regular expressions of the source are modelled by hand-rolled
leftmost scanners.  For these patterns Python's backtracking matcher is
equivalent to a deterministic greedy matcher, since after the greedy number
`\d+\.?\d*` no shorter alternative can make the following literal match. -/

/-- Greedy match of the regex fragment `\d+\.?\d*` at the start of the input;
returns the matched text and the rest. -/
def matchNum (cs : List Char) : Option (List Char × List Char) :=
  let ds := cs.takeWhile Char.isDigit
  let r1 := cs.dropWhile Char.isDigit
  if ds.isEmpty then none
  else if r1.head? = some '.' then
    some (ds ++ '.' :: r1.tail.takeWhile Char.isDigit, r1.tail.dropWhile Char.isDigit)
  else some (ds, r1)

/-- Match of `(\d+\.?\d*)\s*-\s*(\d+\.?\d*)` anchored at the start of the
input; returns the two captured groups. -/
def matchRangeAt (cs : List Char) : Option (List Char × List Char) :=
  (matchNum cs).bind fun p =>
    let r2 := p.2.dropWhile Char.isWhitespace
    if r2.head? = some '-' then
      (matchNum (r2.tail.dropWhile Char.isWhitespace)).map fun q => (p.1, q.1)
    else none

/-- Match of `<\s*(\d+\.?\d*)` anchored at the start of the input. -/
def matchLessAt (cs : List Char) : Option (List Char) :=
  if cs.head? = some '<' then
    (matchNum (cs.tail.dropWhile Char.isWhitespace)).map (·.1)
  else none

/-- Match of `>\s*(\d+\.?\d*)` anchored at the start of the input. -/
def matchGreaterAt (cs : List Char) : Option (List Char) :=
  if cs.head? = some '>' then
    (matchNum (cs.tail.dropWhile Char.isWhitespace)).map (·.1)
  else none

/-- `re.search`: try the anchored matcher at every start position, leftmost
first. -/
def searchWith {α : Type} (m : List Char → Option α) : List Char → Option α
  | [] => none
  | c :: cs =>
    match m (c :: cs) with
    | some r => some r
    | none => searchWith m cs

/-- Numeric value of a captured group of the form `\d+\.?\d*`
(models Python `float` on the captured text). -/
def groupVal (g : List Char) : ℚ :=
  decVal (g.takeWhile Char.isDigit) ((g.dropWhile Char.isDigit).drop 1)

/-- The en-dash string replaced during normalization. -/
def enDash : List Char := "–".data

/-- The literal `to` replaced during normalization. -/
def toWord : List Char := "to".data

/-- A single hyphen, the replacement text. -/
def hyphen : List Char := "-".data

/-- The normalization step of `parse_limit_string`:
`limit_str.strip().lower().replace("–", "-").replace("to", "-")`. -/
def normalizeLimit (s : List Char) : List Char :=
  pyReplace toWord hyphen (pyReplace enDash hyphen (pyLower (pyStrip s)))

/-- Argument of `parse_limit_string`: a Python value that is either a string
or something that is not a string. -/
inductive PyVal where
  | str (s : List Char)
  | nonStr

/-- `parse_limit_string` (src/app.py lines 24-41): normalize, then try the
range, less-than and greater-than patterns in that order, first match wins. -/
def parse_limit_string : PyVal → Option ℚ × Option ℚ
  | .nonStr => (none, none)
  | .str s =>
    let clean := normalizeLimit s
    match searchWith matchRangeAt clean with
    | some (g1, g2) => (some (groupVal g1), some (groupVal g2))
    | none =>
      match searchWith matchLessAt clean with
      | some g => (some 0, some (groupVal g))
      | none =>
        match searchWith matchGreaterAt clean with
        | some g => (some (groupVal g), none)
        | none => (none, none)

/-! ## Character facts -/

/-- The character class appearing in well-formed limit expressions: digits, the
punctuation used by the three patterns, and whitespace. -/
def okChar (c : Char) : Prop :=
  c.isDigit = true ∨ c = '.' ∨ c = '-' ∨ c = '<' ∨ c = '>' ∨ c.isWhitespace = true

theorem toLower_eq_self_of_isDigit (c : Char) (h : c.isDigit = true) :
    c.toLower = c := by
  simp [Char.isDigit] at h
  unfold Char.toLower
  rw [if_neg]
  intro hc
  have h3 : c.toNat ≤ 57 := by
    simpa [Char.toNat, UInt32.le_def, BitVec.le_def] using h.2
  omega

theorem ws_cases (c : Char) (h : c.isWhitespace = true) :
    c = ' ' ∨ c = '\t' ∨ c = '\r' ∨ c = '\n' := by
  have h2 := h
  simp only [Char.isWhitespace, Bool.or_eq_true, decide_eq_true_eq] at h2
  tauto

theorem ws_toLower (c : Char) (h : c.isWhitespace = true) : c.toLower = c := by
  rcases ws_cases c h with rfl | rfl | rfl | rfl <;> decide

theorem ws_not_digit (c : Char) (h : c.isWhitespace = true) : c.isDigit = false := by
  rcases ws_cases c h with rfl | rfl | rfl | rfl <;> decide

theorem ws_ne_dot (c : Char) (h : c.isWhitespace = true) : c ≠ '.' := by
  rcases ws_cases c h with rfl | rfl | rfl | rfl <;> decide

theorem ws_ne_hyphen (c : Char) (h : c.isWhitespace = true) : c ≠ '-' := by
  rcases ws_cases c h with rfl | rfl | rfl | rfl <;> decide

theorem digit_not_ws (c : Char) (h : c.isDigit = true) : c.isWhitespace = false := by
  by_contra hw
  rcases ws_cases c (by simpa using hw) with rfl | rfl | rfl | rfl <;> simp_all

theorem digit_ne_of (c d : Char) (h : c.isDigit = true) (hd : d.isDigit = false) :
    c ≠ d := by
  intro rfl2
  rw [rfl2] at h
  rw [h] at hd
  cases hd

theorem okChar_toLower (c : Char) (h : okChar c) : c.toLower = c := by
  rcases h with h | rfl | rfl | rfl | rfl | h
  · exact toLower_eq_self_of_isDigit c h
  · decide
  · decide
  · decide
  · decide
  · exact ws_toLower c h

theorem okChar_ne_t (c : Char) (h : okChar c) : c ≠ 't' := by
  rintro rfl
  rcases h with h | h | h | h | h | h <;> simp_all [Char.isDigit, Char.isWhitespace]

theorem okChar_ne_enDash (c : Char) (h : okChar c) : c ≠ '–' := by
  rintro rfl
  rcases h with h | h | h | h | h | h <;> simp_all [Char.isDigit, Char.isWhitespace]

/-! ## Helpers for takeWhile / dropWhile on composed strings -/

/-- Head-condition: the first element of `l`, if any, fails `p`. -/
def HeadNot (p : Char → Bool) (l : List Char) : Prop :=
  ∀ c, l.head? = some c → p c = false

theorem takeWhile_head_not {p : Char → Bool} {l : List Char} (h : HeadNot p l) :
    l.takeWhile p = [] := by
  cases l with
  | nil => rfl
  | cons c cs =>
    have := h c rfl
    simp [List.takeWhile_cons, this]

theorem dropWhile_head_not {p : Char → Bool} {l : List Char} (h : HeadNot p l) :
    l.dropWhile p = l := by
  cases l with
  | nil => rfl
  | cons c cs =>
    have := h c rfl
    simp [List.dropWhile_cons, this]

theorem takeWhile_all_append {p : Char → Bool} {a b : List Char}
    (ha : ∀ c ∈ a, p c = true) (hb : HeadNot p b) :
    (a ++ b).takeWhile p = a := by
  rw [List.takeWhile_append_of_pos ha, takeWhile_head_not hb, List.append_nil]

theorem dropWhile_all_append {p : Char → Bool} {a b : List Char}
    (ha : ∀ c ∈ a, p c = true) (hb : HeadNot p b) :
    (a ++ b).dropWhile p = b := by
  rw [List.dropWhile_append_of_pos ha, dropWhile_head_not hb]

/-! ## Decimal literals and the positive matcher lemmas -/

/-- A decimal literal of the shape matched by `\d+\.?\d*`: integer digits and an
optional (possibly empty) fraction part introduced by a dot. -/
structure DecLit where
  intDs : List Char
  frac : Option (List Char)

/-- The text of a decimal literal. -/
def DecLit.render (l : DecLit) : List Char :=
  l.intDs ++ (match l.frac with | some fs => '.' :: fs | none => [])

/-- Well-formedness: at least one integer digit, and only digits in both parts. -/
def DecLit.WF (l : DecLit) : Prop :=
  l.intDs ≠ [] ∧ (∀ c ∈ l.intDs, c.isDigit = true) ∧
    ∀ c ∈ l.frac.getD [], c.isDigit = true

/-- The numeric value of a decimal literal. -/
def DecLit.val (l : DecLit) : ℚ :=
  decVal l.intDs (l.frac.getD [])

/-- A run of whitespace characters (what `\s*` can consume). -/
def WSRun (w : List Char) : Prop :=
  ∀ c ∈ w, c.isWhitespace = true

theorem DecLit.render_ne_nil (l : DecLit) (h : l.WF) : l.render ≠ [] := by
  unfold DecLit.render
  intro he
  exact h.1 (List.append_eq_nil.mp he).1

theorem DecLit.render_head (l : DecLit) (h : l.WF) :
    ∃ c, l.render.head? = some c ∧ c.isDigit = true := by
  obtain ⟨hne, hd, _⟩ := h
  cases hi : l.intDs with
  | nil => exact absurd hi hne
  | cons c cs =>
    refine ⟨c, ?_, hd c (by rw [hi]; exact List.mem_cons_self c cs)⟩
    unfold DecLit.render
    rw [hi]
    rfl

theorem DecLit.render_mem (l : DecLit) (h : l.WF) :
    ∀ c ∈ l.render, c.isDigit = true ∨ c = '.' := by
  intro c hc
  unfold DecLit.render at hc
  rcases List.mem_append.mp hc with h1 | h2
  · exact Or.inl (h.2.1 c h1)
  · cases hf : l.frac with
    | none => rw [hf] at h2; cases h2
    | some fs =>
      rw [hf] at h2
      rcases List.mem_cons.mp h2 with rfl | h3
      · exact Or.inr rfl
      · refine Or.inl ?_
        have h4 := h.2.2
        rw [hf] at h4
        exact h4 c h3

theorem DecLit.render_last (l : DecLit) (h : l.WF) :
    ∀ c, l.render.getLast? = some c → c.isDigit = true ∨ c = '.' := by
  intro c hc
  have := List.mem_of_getLast?_eq_some hc
  exact l.render_mem h c this

/-- `matchNum` consumes exactly a well-formed decimal literal when the rest
starts with a non-digit that is not a dot (or is empty). -/
theorem matchNum_render (l : DecLit) (hWF : l.WF) (rest : List Char)
    (hrest : ∀ c, rest.head? = some c → c.isDigit = false ∧ c ≠ '.') :
    matchNum (l.render ++ rest) = some (l.render, rest) := by
  have hnd : HeadNot Char.isDigit rest := fun c hc => (hrest c hc).1
  cases hf : l.frac with
  | none =>
    have hr : l.render = l.intDs := by unfold DecLit.render; rw [hf]; simp
    rw [hr]
    unfold matchNum
    rw [takeWhile_all_append hWF.2.1 hnd, dropWhile_all_append hWF.2.1 hnd]
    rw [if_neg (by simp [hWF.1])]
    rw [if_neg ?hdot]
    case hdot =>
      intro hdot
      exact (hrest '.' hdot).2 rfl
  | some fs =>
    have hr : l.render = l.intDs ++ '.' :: fs := by unfold DecLit.render; rw [hf]
    have hfd : ∀ c ∈ fs, c.isDigit = true := by
      have h4 := hWF.2.2
      rw [hf] at h4
      exact h4
    rw [hr, List.append_assoc, List.cons_append]
    unfold matchNum
    have hdot : HeadNot Char.isDigit ('.' :: (fs ++ rest)) := by
      intro c hc
      simp at hc
      subst hc
      decide
    rw [takeWhile_all_append hWF.2.1 hdot, dropWhile_all_append hWF.2.1 hdot]
    rw [if_neg (by simp [hWF.1])]
    rw [if_pos (by rfl)]
    simp only [List.tail_cons]
    rw [takeWhile_all_append hfd hnd, dropWhile_all_append hfd hnd]

/-- Helper: a whitespace run followed by a rest with non-whitespace head is
consumed exactly by `dropWhile isWhitespace`. -/
theorem dropWhile_wsrun {w rest : List Char} (hw : WSRun w)
    (hrest : HeadNot Char.isWhitespace rest) :
    (w ++ rest).dropWhile Char.isWhitespace = rest :=
  dropWhile_all_append hw hrest

/-- `matchRangeAt` on a fully well-formed range expression returns exactly the
two literals. -/
theorem matchRangeAt_render (l1 l2 : DecLit) (w1 w2 : List Char)
    (h1 : l1.WF) (h2 : l2.WF) (hw1 : WSRun w1) (hw2 : WSRun w2) :
    matchRangeAt (l1.render ++ (w1 ++ '-' :: (w2 ++ l2.render))) =
      some (l1.render, l2.render) := by
  have hrest1 : ∀ c, (w1 ++ '-' :: (w2 ++ l2.render)).head? = some c →
      c.isDigit = false ∧ c ≠ '.' := by
    intro c hc
    cases w1 with
    | nil =>
      simp at hc
      subst hc
      exact ⟨by decide, by decide⟩
    | cons a w =>
      simp at hc
      have ha := hw1 a (List.mem_cons_self a w)
      subst hc
      exact ⟨ws_not_digit a ha, ws_ne_dot a ha⟩
  have hhyp : HeadNot Char.isWhitespace ('-' :: (w2 ++ l2.render)) := by
    intro c hc
    simp at hc
    subst hc
    decide
  have hl2head : HeadNot Char.isWhitespace l2.render := by
    intro c hc
    obtain ⟨d, hd, hdd⟩ := l2.render_head h2
    rw [hd] at hc
    injection hc with hc2
    subst hc2
    exact digit_not_ws d hdd
  have hm2 : matchNum l2.render = some (l2.render, []) := by
    have := matchNum_render l2 h2 [] (by intro c hc; cases hc)
    rwa [List.append_nil] at this
  unfold matchRangeAt
  rw [matchNum_render l1 h1 _ hrest1]
  simp only [Option.some_bind]
  rw [dropWhile_wsrun hw1 hhyp]
  simp only [List.head?_cons, if_pos rfl, List.tail_cons]
  rw [dropWhile_wsrun hw2 hl2head, hm2]
  rfl

/-- If the anchored matcher succeeds on the whole (nonempty) input, the search
returns that result. -/
theorem searchWith_of_head {α : Type} (m : List Char → Option α) (c : Char)
    (cs : List Char) (r : α) (h : m (c :: cs) = some r) :
    searchWith m (c :: cs) = some r := by
  unfold searchWith
  rw [h]

/-- If the anchored matcher fails on every suffix, the search fails. -/
theorem searchWith_none {α : Type} (m : List Char → Option α) (cs : List Char)
    (h : ∀ s : List Char, s <:+ cs → m s = none) : searchWith m cs = none := by
  induction cs with
  | nil => rfl
  | cons c cs ih =>
    unfold searchWith
    rw [h (c :: cs) (List.suffix_refl _)]
    exact ih fun s hs => h s (hs.trans (List.suffix_cons c cs))

/-- If the input is nonempty and the anchored matcher succeeds on all of it,
the search returns that result. -/
theorem searchWith_self {α : Type} (m : List Char → Option α) (cs : List Char)
    (r : α) (hne : cs ≠ []) (h : m cs = some r) : searchWith m cs = some r := by
  cases cs with
  | nil => exact absurd rfl hne
  | cons c cs => exact searchWith_of_head m c cs r h

theorem head?_mem {l : List Char} {c : Char} (h : l.head? = some c) : c ∈ l := by
  cases l with
  | nil => cases h
  | cons a l =>
    injection h with h2
    rw [h2]
    exact List.mem_cons_self c l

/-! ## Negative matcher lemmas -/

theorem matchNum_some_digit {cs g r : List Char}
    (h : matchNum cs = some (g, r)) : ∃ c ∈ cs, c.isDigit = true := by
  unfold matchNum at h
  by_cases he : (cs.takeWhile Char.isDigit).isEmpty
  · rw [if_pos he] at h
    cases h
  · cases ht : cs.takeWhile Char.isDigit with
    | nil => rw [ht] at he; exact absurd rfl he
    | cons c cs2 =>
      have hc : c ∈ cs.takeWhile Char.isDigit := by
        rw [ht]; exact List.mem_cons_self c cs2
      exact ⟨c, (List.takeWhile_sublist Char.isDigit).subset hc,
        List.mem_takeWhile_imp hc⟩

theorem matchNum_some_rest_sub {cs g r : List Char}
    (h : matchNum cs = some (g, r)) : ∀ x ∈ r, x ∈ cs := by
  unfold matchNum at h
  by_cases he : (cs.takeWhile Char.isDigit).isEmpty
  · rw [if_pos he] at h
    cases h
  · rw [if_neg he] at h
    by_cases hdot : (cs.dropWhile Char.isDigit).head? = some '.'
    · rw [if_pos hdot] at h
      injection h with h2
      have hr : r = (cs.dropWhile Char.isDigit).tail.dropWhile Char.isDigit :=
        (congrArg Prod.snd h2).symm
      intro x hx
      rw [hr] at hx
      exact (((List.dropWhile_sublist _).trans
        (List.tail_sublist _)).trans (List.dropWhile_sublist _)).subset hx
    · rw [if_neg hdot] at h
      injection h with h2
      have hr : r = cs.dropWhile Char.isDigit := (congrArg Prod.snd h2).symm
      intro x hx
      rw [hr] at hx
      exact (List.dropWhile_sublist _).subset hx

theorem matchRangeAt_some_hyphen {cs : List Char} {x : List Char × List Char}
    (h : matchRangeAt cs = some x) : '-' ∈ cs := by
  unfold matchRangeAt at h
  cases hm : matchNum cs with
  | none => rw [hm] at h; cases h
  | some p =>
    rw [hm] at h
    simp only [Option.some_bind] at h
    by_cases hh : (p.2.dropWhile Char.isWhitespace).head? = some '-'
    · have h1 : '-' ∈ p.2.dropWhile Char.isWhitespace := head?_mem hh
      have h2 : '-' ∈ p.2 := (List.dropWhile_sublist _).subset h1
      obtain ⟨g, r⟩ := p
      exact matchNum_some_rest_sub hm '-' h2
    · rw [if_neg hh] at h
      cases h

theorem matchRangeAt_some_digit {cs : List Char} {x : List Char × List Char}
    (h : matchRangeAt cs = some x) : ∃ c ∈ cs, c.isDigit = true := by
  unfold matchRangeAt at h
  cases hm : matchNum cs with
  | none => rw [hm] at h; cases h
  | some p =>
    obtain ⟨g, r⟩ := p
    exact matchNum_some_digit hm

theorem matchLessAt_some_lt {cs g : List Char}
    (h : matchLessAt cs = some g) : '<' ∈ cs := by
  unfold matchLessAt at h
  by_cases hh : cs.head? = some '<'
  · exact head?_mem hh
  · rw [if_neg hh] at h
    cases h

theorem matchLessAt_some_digit {cs g : List Char}
    (h : matchLessAt cs = some g) : ∃ c ∈ cs, c.isDigit = true := by
  unfold matchLessAt at h
  by_cases hh : cs.head? = some '<'
  · rw [if_pos hh] at h
    cases hm : matchNum (cs.tail.dropWhile Char.isWhitespace) with
    | none => rw [hm] at h; cases h
    | some p =>
      obtain ⟨g2, r2⟩ := p
      obtain ⟨c, hc, hcd⟩ := matchNum_some_digit hm
      exact ⟨c, ((List.dropWhile_sublist _).trans (List.tail_sublist _)).subset hc, hcd⟩
  · rw [if_neg hh] at h
    cases h

theorem matchGreaterAt_some_gt {cs g : List Char}
    (h : matchGreaterAt cs = some g) : '>' ∈ cs := by
  unfold matchGreaterAt at h
  by_cases hh : cs.head? = some '>'
  · exact head?_mem hh
  · rw [if_neg hh] at h
    cases h

theorem matchGreaterAt_some_digit {cs g : List Char}
    (h : matchGreaterAt cs = some g) : ∃ c ∈ cs, c.isDigit = true := by
  unfold matchGreaterAt at h
  by_cases hh : cs.head? = some '>'
  · rw [if_pos hh] at h
    cases hm : matchNum (cs.tail.dropWhile Char.isWhitespace) with
    | none => rw [hm] at h; cases h
    | some p =>
      obtain ⟨g2, r2⟩ := p
      obtain ⟨c, hc, hcd⟩ := matchNum_some_digit hm
      exact ⟨c, ((List.dropWhile_sublist _).trans (List.tail_sublist _)).subset hc, hcd⟩
  · rw [if_neg hh] at h
    cases h

/-! ## Normalization is the identity on well-formed limit text -/

theorem pyStrip_id (l : List Char) (h1 : HeadNot Char.isWhitespace l)
    (h2 : HeadNot Char.isWhitespace l.reverse) : pyStrip l = l := by
  unfold pyStrip
  rw [dropWhile_head_not h1, dropWhile_head_not h2, List.reverse_reverse]

theorem pyLower_id (l : List Char) (h : ∀ c ∈ l, c.toLower = c) :
    pyLower l = l := by
  unfold pyLower
  rw [show l.map Char.toLower = l.map id from List.map_congr_left h, List.map_id]

theorem pyReplaceF_id (p : Char) (ps repl : List Char) (fuel : Nat) :
    ∀ l : List Char, p ∉ l → pyReplaceF (p :: ps) repl fuel l = l := by
  induction fuel with
  | zero =>
    intro l _
    cases l with
    | nil => rfl
    | cons c cs => rfl
  | succ fuel ih =>
    intro l hp
    cases l with
    | nil => rfl
    | cons c cs =>
      unfold pyReplaceF
      rw [if_neg]
      · rw [ih cs fun hm => hp (List.mem_cons_of_mem c hm)]
      · rintro ⟨-, hpre⟩
        rw [List.isPrefixOf_cons₂] at hpre
        have : p = c := by
          have := (Bool.and_eq_true _ _).mp hpre
          exact eq_of_beq this.1
        exact hp (this ▸ List.mem_cons_self c cs)

theorem pyReplace_id (p : Char) (ps repl l : List Char) (h : p ∉ l) :
    pyReplace (p :: ps) repl l = l :=
  pyReplaceF_id p ps repl l.length l h

theorem normalizeLimit_id (l : List Char) (hok : ∀ c ∈ l, okChar c)
    (h1 : HeadNot Char.isWhitespace l) (h2 : HeadNot Char.isWhitespace l.reverse) :
    normalizeLimit l = l := by
  unfold normalizeLimit
  rw [pyStrip_id l h1 h2]
  rw [pyLower_id l fun c hc => okChar_toLower c (hok c hc)]
  rw [show enDash = '–' :: [] from rfl,
    pyReplace_id '–' [] hyphen l fun hm => okChar_ne_enDash '–' (hok '–' hm) rfl]
  rw [show toWord = 't' :: ['o'] from rfl,
    pyReplace_id 't' ['o'] hyphen l fun hm => okChar_ne_t 't' (hok 't' hm) rfl]

/-! ## Captured-group value -/

theorem getLast?_append_right (l l2 : List Char) (h : l2 ≠ []) :
    (l ++ l2).getLast? = l2.getLast? := by
  rw [List.getLast?_append]
  cases h2 : l2.getLast? with
  | none => exact absurd (List.getLast?_eq_none_iff.mp h2) h
  | some c => rfl

theorem okChar_ws {c : Char} (h : c.isWhitespace = true) : okChar c :=
  Or.inr (Or.inr (Or.inr (Or.inr (Or.inr h))))

theorem okChar_of_render (l : DecLit) (h : l.WF) : ∀ c ∈ l.render, okChar c := by
  intro c hc
  rcases l.render_mem h c hc with hd | rfl
  · exact Or.inl hd
  · exact Or.inr (Or.inl rfl)

theorem render_head_not_ws (l : DecLit) (h : l.WF) :
    HeadNot Char.isWhitespace l.render := by
  intro c hc
  obtain ⟨d, hd, hdd⟩ := l.render_head h
  rw [hd] at hc
  injection hc with h2
  subst h2
  exact digit_not_ws d hdd

theorem groupVal_render (l : DecLit) (h : l.WF) : groupVal l.render = l.val := by
  unfold groupVal DecLit.val
  cases hf : l.frac with
  | none =>
    have hr : l.render = l.intDs ++ [] := by
      unfold DecLit.render; rw [hf]
    rw [hr, takeWhile_all_append h.2.1 (fun c hc => by cases hc),
      dropWhile_all_append h.2.1 (fun c hc => by cases hc)]
    rfl
  | some fs =>
    have hr : l.render = l.intDs ++ '.' :: fs := by
      unfold DecLit.render; rw [hf]
    have hdot : HeadNot Char.isDigit ('.' :: fs) := by
      intro c hc
      injection hc with h2
      rw [← h2]
      decide
    rw [hr, takeWhile_all_append h.2.1 hdot, dropWhile_all_append h.2.1 hdot]
    rfl

/-! ## Behaviour of `parse_limit_string` on each pattern -/

theorem parse_limit_range (l1 l2 : DecLit) (w1 w2 : List Char)
    (h1 : l1.WF) (h2 : l2.WF) (hw1 : WSRun w1) (hw2 : WSRun w2) :
    parse_limit_string (.str (l1.render ++ (w1 ++ '-' :: (w2 ++ l2.render)))) =
      (some l1.val, some l2.val) := by
  have hok : ∀ c ∈ l1.render ++ (w1 ++ '-' :: (w2 ++ l2.render)), okChar c := by
    intro c hc
    rcases List.mem_append.mp hc with hA | hB
    · exact okChar_of_render l1 h1 c hA
    · rcases List.mem_append.mp hB with hw | hC
      · exact okChar_ws (hw1 c hw)
      · rcases List.mem_cons.mp hC with rfl | hD
        · exact Or.inr (Or.inr (Or.inl rfl))
        · rcases List.mem_append.mp hD with hwm | hE
          · exact okChar_ws (hw2 c hwm)
          · exact okChar_of_render l2 h2 c hE
  have hhead : HeadNot Char.isWhitespace
      (l1.render ++ (w1 ++ '-' :: (w2 ++ l2.render))) := by
    intro c hc
    rw [List.head?_append] at hc
    obtain ⟨d, hd, hdd⟩ := l1.render_head h1
    rw [hd, Option.or_some] at hc
    injection hc with h2
    subst h2
    exact digit_not_ws d hdd
  have hglast : (l1.render ++ (w1 ++ '-' :: (w2 ++ l2.render))).getLast? =
      l2.render.getLast? := by
    rw [getLast?_append_right _ _ (by simp)]
    rw [getLast?_append_right _ _ (by simp)]
    rw [show ('-' :: (w2 ++ l2.render)) = ['-'] ++ (w2 ++ l2.render) from rfl]
    rw [getLast?_append_right _ _
      (fun hE => l2.render_ne_nil h2 (List.append_eq_nil.mp hE).2)]
    exact getLast?_append_right _ _ (l2.render_ne_nil h2)
  have hlast : HeadNot Char.isWhitespace
      (l1.render ++ (w1 ++ '-' :: (w2 ++ l2.render))).reverse := by
    intro c hc
    rw [List.head?_reverse, hglast] at hc
    rcases l2.render_last h2 c hc with hd | rfl
    · exact digit_not_ws c hd
    · decide
  have hnorm := normalizeLimit_id _ hok hhead hlast
  have hsearch : searchWith matchRangeAt
      (l1.render ++ (w1 ++ '-' :: (w2 ++ l2.render))) =
      some (l1.render, l2.render) :=
    searchWith_self _ _ _
      (fun hE => l1.render_ne_nil h1 (List.append_eq_nil.mp hE).1)
      (matchRangeAt_render l1 l2 w1 w2 h1 h2 hw1 hw2)
  simp only [parse_limit_string]
  rw [hnorm, hsearch]
  show (some (groupVal l1.render), some (groupVal l2.render)) = _
  rw [groupVal_render l1 h1, groupVal_render l2 h2]

theorem parse_limit_less (l : DecLit) (w : List Char) (h : l.WF) (hw : WSRun w) :
    parse_limit_string (.str ('<' :: (w ++ l.render))) = (some 0, some l.val) := by
  have hok : ∀ c ∈ '<' :: (w ++ l.render), okChar c := by
    intro c hc
    rcases List.mem_cons.mp hc with rfl | hD
    · exact Or.inr (Or.inr (Or.inr (Or.inl rfl)))
    · rcases List.mem_append.mp hD with hwm | hE
      · exact okChar_ws (hw c hwm)
      · exact okChar_of_render l h c hE
  have hhead : HeadNot Char.isWhitespace ('<' :: (w ++ l.render)) := by
    intro c hc
    injection hc with h2
    subst h2
    decide
  have hglast : ('<' :: (w ++ l.render)).getLast? = l.render.getLast? := by
    rw [show ('<' :: (w ++ l.render)) = ['<'] ++ (w ++ l.render) from rfl]
    rw [getLast?_append_right _ _
      (fun hE => l.render_ne_nil h (List.append_eq_nil.mp hE).2)]
    exact getLast?_append_right _ _ (l.render_ne_nil h)
  have hlast : HeadNot Char.isWhitespace ('<' :: (w ++ l.render)).reverse := by
    intro c hc
    rw [List.head?_reverse, hglast] at hc
    rcases l.render_last h c hc with hd | rfl
    · exact digit_not_ws c hd
    · decide
  have hnorm := normalizeLimit_id _ hok hhead hlast
  have hhyp : '-' ∉ '<' :: (w ++ l.render) := by
    intro hm
    rcases List.mem_cons.mp hm with he | hD
    · cases he
    · rcases List.mem_append.mp hD with hwm | hE
      · exact ws_ne_hyphen '-' (hw '-' hwm) rfl
      · rcases l.render_mem h '-' hE with hd | he2
        · cases hd
        · cases he2
  have hrange : searchWith matchRangeAt ('<' :: (w ++ l.render)) = none := by
    apply searchWith_none
    intro s hs
    cases hmm : matchRangeAt s with
    | none => rfl
    | some x =>
      exact absurd (hs.sublist.subset (matchRangeAt_some_hyphen hmm)) hhyp
  have hless : searchWith matchLessAt ('<' :: (w ++ l.render)) = some l.render := by
    apply searchWith_of_head
    unfold matchLessAt
    rw [List.head?_cons, if_pos rfl]
    simp only [List.tail_cons]
    rw [dropWhile_wsrun hw (render_head_not_ws l h)]
    have hm : matchNum l.render = some (l.render, []) := by
      have := matchNum_render l h [] (by intro c hc; cases hc)
      rwa [List.append_nil] at this
    rw [hm]
    rfl
  simp only [parse_limit_string]
  rw [hnorm, hrange, hless]
  show (some 0, some (groupVal l.render)) = _
  rw [groupVal_render l h]

theorem parse_limit_greater (l : DecLit) (w : List Char) (h : l.WF) (hw : WSRun w) :
    parse_limit_string (.str ('>' :: (w ++ l.render))) = (some l.val, none) := by
  have hok : ∀ c ∈ '>' :: (w ++ l.render), okChar c := by
    intro c hc
    rcases List.mem_cons.mp hc with rfl | hD
    · exact Or.inr (Or.inr (Or.inr (Or.inr (Or.inl rfl))))
    · rcases List.mem_append.mp hD with hwm | hE
      · exact okChar_ws (hw c hwm)
      · exact okChar_of_render l h c hE
  have hhead : HeadNot Char.isWhitespace ('>' :: (w ++ l.render)) := by
    intro c hc
    injection hc with h2
    subst h2
    decide
  have hglast : ('>' :: (w ++ l.render)).getLast? = l.render.getLast? := by
    rw [show ('>' :: (w ++ l.render)) = ['>'] ++ (w ++ l.render) from rfl]
    rw [getLast?_append_right _ _
      (fun hE => l.render_ne_nil h (List.append_eq_nil.mp hE).2)]
    exact getLast?_append_right _ _ (l.render_ne_nil h)
  have hlast : HeadNot Char.isWhitespace ('>' :: (w ++ l.render)).reverse := by
    intro c hc
    rw [List.head?_reverse, hglast] at hc
    rcases l.render_last h c hc with hd | rfl
    · exact digit_not_ws c hd
    · decide
  have hnorm := normalizeLimit_id _ hok hhead hlast
  have hhyp : '-' ∉ '>' :: (w ++ l.render) := by
    intro hm
    rcases List.mem_cons.mp hm with he | hD
    · cases he
    · rcases List.mem_append.mp hD with hwm | hE
      · exact ws_ne_hyphen '-' (hw '-' hwm) rfl
      · rcases l.render_mem h '-' hE with hd | he2
        · cases hd
        · cases he2
  have hlt : '<' ∉ '>' :: (w ++ l.render) := by
    intro hm
    rcases List.mem_cons.mp hm with he | hD
    · cases he
    · rcases List.mem_append.mp hD with hwm | hE
      · rcases ws_cases _ (hw '<' hwm) with he2 | he2 | he2 | he2 <;> cases he2
      · rcases l.render_mem h '<' hE with hd | he2
        · cases hd
        · cases he2
  have hrange : searchWith matchRangeAt ('>' :: (w ++ l.render)) = none := by
    apply searchWith_none
    intro s hs
    cases hmm : matchRangeAt s with
    | none => rfl
    | some x =>
      exact absurd (hs.sublist.subset (matchRangeAt_some_hyphen hmm)) hhyp
  have hless : searchWith matchLessAt ('>' :: (w ++ l.render)) = none := by
    apply searchWith_none
    intro s hs
    cases hmm : matchLessAt s with
    | none => rfl
    | some x =>
      exact absurd (hs.sublist.subset (matchLessAt_some_lt hmm)) hlt
  have hgt : searchWith matchGreaterAt ('>' :: (w ++ l.render)) = some l.render := by
    apply searchWith_of_head
    unfold matchGreaterAt
    rw [List.head?_cons, if_pos rfl]
    simp only [List.tail_cons]
    rw [dropWhile_wsrun hw (render_head_not_ws l h)]
    have hm : matchNum l.render = some (l.render, []) := by
      have := matchNum_render l h [] (by intro c hc; cases hc)
      rwa [List.append_nil] at this
    rw [hm]
    rfl
  simp only [parse_limit_string]
  rw [hnorm, hrange, hless, hgt]
  show (some (groupVal l.render), none) = _
  rw [groupVal_render l h]

theorem parse_limit_nodigit (s : List Char)
    (h : ∀ c ∈ normalizeLimit s, c.isDigit = false) :
    parse_limit_string (.str s) = (none, none) := by
  have hrange : searchWith matchRangeAt (normalizeLimit s) = none := by
    apply searchWith_none
    intro t ht
    cases hmm : matchRangeAt t with
    | none => rfl
    | some x =>
      obtain ⟨c, hc, hcd⟩ := matchRangeAt_some_digit hmm
      have := h c (ht.sublist.subset hc)
      rw [this] at hcd
      cases hcd
  have hless : searchWith matchLessAt (normalizeLimit s) = none := by
    apply searchWith_none
    intro t ht
    cases hmm : matchLessAt t with
    | none => rfl
    | some x =>
      obtain ⟨c, hc, hcd⟩ := matchLessAt_some_digit hmm
      have := h c (ht.sublist.subset hc)
      rw [this] at hcd
      cases hcd
  have hgt : searchWith matchGreaterAt (normalizeLimit s) = none := by
    apply searchWith_none
    intro t ht
    cases hmm : matchGreaterAt t with
    | none => rfl
    | some x =>
      obtain ⟨c, hc, hcd⟩ := matchGreaterAt_some_digit hmm
      have := h c (ht.sublist.subset hc)
      rw [this] at hcd
      cases hcd
  simp only [parse_limit_string]
  rw [hrange, hless, hgt]

/-- C3: `parse_limit_string` returns no bounds on a non-string input; otherwise,
after trimming, lowercasing and replacing en-dashes and `to` by a hyphen, the
range, less-than and greater-than patterns are tried in that fixed order with
the first match winning: two decimal numbers separated by a hyphen give
`(min, max)`, `<` followed by a number gives `(0, n)`, `>` followed by a number
gives `(n, absent)`, and when no pattern matches the result is absent rather
than an error.  The two concrete equations at the end exhibit the priority
order (range beats less-than, less-than beats greater-than). -/
theorem parse_limit_string_spec (l1 l2 : DecLit) (w1 w2 : List Char)
    (h1 : l1.WF) (h2 : l2.WF) (hw1 : WSRun w1) (hw2 : WSRun w2) :
    parse_limit_string .nonStr = (none, none) ∧
    parse_limit_string (.str (l1.render ++ (w1 ++ '-' :: (w2 ++ l2.render)))) =
      (some l1.val, some l2.val) ∧
    parse_limit_string (.str ('<' :: (w1 ++ l1.render))) = (some 0, some l1.val) ∧
    parse_limit_string (.str ('>' :: (w1 ++ l1.render))) = (some l1.val, none) ∧
    (∀ s, (∀ c ∈ normalizeLimit s, c.isDigit = false) →
      parse_limit_string (.str s) = (none, none)) ∧
    parse_limit_string (.str ('<' :: '5' :: '-' :: ['6'])) = (some 5, some 6) ∧
    parse_limit_string (.str ('<' :: '5' :: '>' :: ['6'])) = (some 0, some 5) :=
  ⟨rfl, parse_limit_range l1 l2 w1 w2 h1 h2 hw1 hw2,
   parse_limit_less l1 w1 h1 hw1, parse_limit_greater l1 w1 h1 hw1,
   parse_limit_nodigit,
   by with_unfolding_all decide, by with_unfolding_all decide⟩

/-- Witness for C3 at the concrete input `6.5 - 8.5`. -/
theorem parse_limit_string_spec_witness :
    parse_limit_string
        (.str ('6' :: '.' :: '5' :: ' ' :: '-' :: ' ' :: '8' :: '.' :: ['5'])) =
      (some (13 / 2), some (17 / 2)) := by
  have hws : WSRun [' '] := by
    intro c hc
    rcases List.mem_singleton.mp hc with rfl
    decide
  have h := (parse_limit_string_spec ⟨['6'], some ['5']⟩ ⟨['8'], some ['5']⟩
    [' '] [' '] ⟨by decide, by decide, by decide⟩ ⟨by decide, by decide, by decide⟩
    hws hws).2.1
  have e : (⟨['6'], some ['5']⟩ : DecLit).render ++
      ([' '] ++ '-' :: ([' '] ++ (⟨['8'], some ['5']⟩ : DecLit).render)) =
      '6' :: '.' :: '5' :: ' ' :: '-' :: ' ' :: '8' :: '.' :: ['5'] := rfl
  have hv1 : (⟨['6'], some ['5']⟩ : DecLit).val = 13 / 2 := by
    with_unfolding_all decide
  have hv2 : (⟨['8'], some ['5']⟩ : DecLit).val = 17 / 2 := by
    with_unfolding_all decide
  rw [e, hv1, hv2] at h
  exact h

/-! ## SchemaDetector: header-row search (src/app.py lines 99-106) -/

/-- Keyword `parameters`. -/
def kwParameters : List Char := "parameters".data

/-- Keyword `date`. -/
def kwDate : List Char := "date".data

/-- Keyword `ph`. -/
def kwPh : List Char := "ph".data

/-- Keyword `tds`. -/
def kwTds : List Char := "tds".data

/-- Keyword `hardness`. -/
def kwHardness : List Char := "hardness".data

/-- Keyword `alkalinity`. -/
def kwAlkalinity : List Char := "alkalinity".data

/-- The fixed keyword list of the header-row search. -/
def keywords : List (List Char) :=
  [kwParameters, kwDate, kwPh, kwTds, kwHardness, kwAlkalinity]

/-- `raw.iloc[i]` on the raw grid (out-of-range gives an empty row). -/
def rowAt (raw : List (List Val)) (i : Nat) : List Val :=
  raw.getD i []

/-- Number of keywords that occur as a substring of the lowercased text form of
at least one cell of the row
(`sum(1 for k in keywords if any(k in s for s in row_str))`). -/
def kwCount (row : List Val) : Nat :=
  (keywords.filter fun k => row.any fun c => isSubstrB k (pyLower (cellStr c))).length

/-- The header-row scan loop of `process_file`, structurally recursive on a fuel
bound (`15` at the call site, which covers every index the loop can visit):
starting at row `i`, return the first row index below `min 15 (len raw)` whose
keyword count reaches 2, and `0` if the scan runs out. -/
def headerScanF (raw : List (List Val)) : Nat → Nat → Nat
  | 0, _ => 0
  | fuel + 1, i =>
    if i < min 15 raw.length then
      if 2 ≤ kwCount (rowAt raw i) then i else headerScanF raw fuel (i + 1)
    else 0

/-- `header_idx` as computed by `process_file` lines 99-106. -/
def header_idx (raw : List (List Val)) : Nat :=
  headerScanF raw 15 0

theorem headerScanF_found (raw : List (List Val)) :
    ∀ (fuel i0 i : Nat), i0 ≤ i → i < min 15 raw.length →
      min 15 raw.length - i0 ≤ fuel → 2 ≤ kwCount (rowAt raw i) →
      (∀ j, i0 ≤ j → j < i → ¬ 2 ≤ kwCount (rowAt raw j)) →
      headerScanF raw fuel i0 = i := by
  intro fuel
  induction fuel with
  | zero =>
    intro i0 i hle hlt hfuel _ _
    omega
  | succ fuel ih =>
    intro i0 i hle hlt hfuel hkw hprev
    unfold headerScanF
    rw [if_pos (by omega)]
    by_cases he : i0 = i
    · subst he
      rw [if_pos hkw]
    · rw [if_neg (hprev i0 (le_refl i0) (by omega))]
      exact ih (i0 + 1) i (by omega) hlt (by omega) hkw
        fun j hj1 hj2 => hprev j (by omega) hj2

theorem headerScanF_notfound (raw : List (List Val)) :
    ∀ (fuel i0 : Nat),
      (∀ i, i0 ≤ i → i < min 15 raw.length → ¬ 2 ≤ kwCount (rowAt raw i)) →
      headerScanF raw fuel i0 = 0 := by
  intro fuel
  induction fuel with
  | zero =>
    intro i0 _
    rfl
  | succ fuel ih =>
    intro i0 h
    unfold headerScanF
    by_cases hlt : i0 < min 15 raw.length
    · rw [if_pos hlt, if_neg (h i0 (le_refl i0) hlt)]
      exact ih (i0 + 1) fun i h1 h2 => h i (by omega) h2
    · rw [if_neg hlt]

/-- C2: header detection scans at most the first 15 rows and selects the first
row whose cells contain at least 2 distinct keywords of the fixed set
(as substrings of the lowercased text forms); if no row among the first
`min 15 (length raw)` qualifies, it returns row index 0. -/
theorem header_idx_spec (raw : List (List Val)) (i : Nat) :
    (i < min 15 raw.length → 2 ≤ kwCount (rowAt raw i) →
      (∀ j, j < i → ¬ 2 ≤ kwCount (rowAt raw j)) → header_idx raw = i) ∧
    ((∀ j, j < min 15 raw.length → ¬ 2 ≤ kwCount (rowAt raw j)) →
      header_idx raw = 0) := by
  constructor
  · intro hlt hkw hprev
    exact headerScanF_found raw 15 0 i (Nat.zero_le i) hlt (by omega) hkw
      fun j _ hj2 => hprev j hj2
  · intro hnone
    exact headerScanF_notfound raw 15 0 fun j _ hj2 => hnone j hj2

/-- Cell text `Parameters`. -/
def cParameters : List Char := "Parameters".data

/-- Cell text `Date`. -/
def cDate : List Char := "Date".data

/-- Cell text `pH`. -/
def cpH : List Char := "pH".data

/-- Cell text `TDS`. -/
def cTDS : List Char := "TDS".data

/-- Cell text of an unrelated title row. -/
def cJunkA : List Char := "Company Report".data

/-- Cell text of an unrelated subtitle row. -/
def cJunkB : List Char := "Week 12".data

/-- A concrete grid whose first two rows are unrelated text and whose row 2 is
the header row. -/
def wGrid : List (List Val) :=
  [[Val.vstr cJunkA], [Val.vstr cJunkB],
   [Val.vstr cParameters, Val.vstr cDate, Val.vstr cpH, Val.vstr cTDS]]

/-- Witness for C2: on `wGrid` the header row is row 2. -/
theorem header_idx_spec_witness : header_idx wGrid = 2 :=
  (header_idx_spec wGrid 2).1 (by decide) (by decide) (by decide)

/-! ## SchemaDetector: limit-row search and limit extraction
(src/app.py lines 108-122) -/

/-- The label `control limit`. -/
def ctrlLimit : List Char := "control limit".data

/-- Whether a row contains a cell whose lowercased text form equals
`control limit`. -/
def hasCtrl (row : List Val) : Bool :=
  row.any fun c => decide (pyLower (cellStr c) = ctrlLimit)

/-- The limit-row scan loop, fuelled like the header scan (`20` at the call
site covers every index the loop can visit). -/
def limitScanF (raw : List (List Val)) : Nat → Nat → Option Nat
  | 0, _ => none
  | fuel + 1, i =>
    if i < min 20 raw.length then
      if hasCtrl (rowAt raw i) then some i else limitScanF raw fuel (i + 1)
    else none

/-- `limit_idx` as computed by `process_file` lines 110-114. -/
def limit_idx (raw : List (List Val)) : Option Nat :=
  limitScanF raw 20 0

/-- A per-column control limit: optional min and max bound. -/
structure LimitBound where
  min : Option ℚ
  max : Option ℚ
deriving DecidableEq

/-- Python dict assignment on an association list: replace the value of an
existing key, else append. -/
def insertA : List (List Char × LimitBound) → List Char → LimitBound →
    List (List Char × LimitBound)
  | [], k, v => [(k, v)]
  | (k2, v2) :: t, k, v =>
    if k2 = k then (k, v) :: t else (k2, v2) :: insertA t k v

/-- Python dict lookup on an association list. -/
def lookupA : List (List Char × LimitBound) → List Char → Option LimitBound
  | [], _ => none
  | (k2, v2) :: t, k => if k2 = k then some v2 else lookupA t k

/-- One step of the limit-extraction loop: parse the limit-row cell and record
it under the trimmed header-cell text when at least one bound came back. -/
def limitStep (acc : List (List Char × LimitBound)) (p : Val × Val) :
    List (List Char × LimitBound) :=
  let mnmx := parse_limit_string (.str (cellStr p.2))
  if mnmx.1.isSome ∨ mnmx.2.isSome then
    insertA acc (pyStrip (cellStr p.1)) ⟨mnmx.1, mnmx.2⟩
  else acc

/-- `extracted_limits` as computed by `process_file` lines 109-122: empty when
no limit row was found, else built by pairing the header row and the limit row
positionally. -/
def extracted_limits (raw : List (List Val)) (hidx : Nat) :
    List (List Char × LimitBound) :=
  match limit_idx raw with
  | none => []
  | some li => ((rowAt raw hidx).zip (rowAt raw li)).foldl limitStep []

theorem limitScanF_some (raw : List (List Val)) :
    ∀ (fuel i0 i : Nat), limitScanF raw fuel i0 = some i →
      i0 ≤ i ∧ i < min 20 raw.length ∧ hasCtrl (rowAt raw i) = true ∧
        ∀ j, i0 ≤ j → j < i → hasCtrl (rowAt raw j) = false := by
  intro fuel
  induction fuel with
  | zero =>
    intro i0 i h
    cases h
  | succ fuel ih =>
    intro i0 i h
    unfold limitScanF at h
    by_cases hlt : i0 < min 20 raw.length
    · rw [if_pos hlt] at h
      by_cases hc : hasCtrl (rowAt raw i0)
      · rw [if_pos hc] at h
        injection h with h2
        subst h2
        exact ⟨le_refl i0, hlt, hc, fun j hj1 hj2 => by omega⟩
      · rw [if_neg hc] at h
        obtain ⟨ha, hb, hcc, hd⟩ := ih (i0 + 1) i h
        refine ⟨by omega, hb, hcc, fun j hj1 hj2 => ?_⟩
        by_cases hj : j = i0
        · subst hj
          exact Bool.not_eq_true _ ▸ (by simpa using hc)
        · exact hd j (by omega) hj2
    · rw [if_neg hlt] at h
      cases h

theorem limitScanF_none (raw : List (List Val)) :
    ∀ (fuel i0 : Nat),
      (∀ i, i0 ≤ i → i < min 20 raw.length → hasCtrl (rowAt raw i) = false) →
      limitScanF raw fuel i0 = none := by
  intro fuel
  induction fuel with
  | zero =>
    intro i0 _
    rfl
  | succ fuel ih =>
    intro i0 h
    unfold limitScanF
    by_cases hlt : i0 < min 20 raw.length
    · rw [if_pos hlt, if_neg (by simp [h i0 (le_refl i0) hlt])]
      exact ih (i0 + 1) fun i h1 h2 => h i (by omega) h2
    · rw [if_neg hlt]

theorem mem_insertA (l : List (List Char × LimitBound)) (k : List Char)
    (v : LimitBound) :
    ∀ x ∈ insertA l k v, x = (k, v) ∨ x ∈ l := by
  induction l with
  | nil =>
    intro x hx
    rcases List.mem_singleton.mp hx with rfl
    exact Or.inl rfl
  | cons e t ih =>
    obtain ⟨k2, v2⟩ := e
    intro x hx
    unfold insertA at hx
    by_cases he : k2 = k
    · rw [if_pos he] at hx
      rcases List.mem_cons.mp hx with rfl | hx2
      · exact Or.inl rfl
      · exact Or.inr (List.mem_cons_of_mem _ hx2)
    · rw [if_neg he] at hx
      rcases List.mem_cons.mp hx with rfl | hx2
      · exact Or.inr (List.mem_cons_self _ _)
      · rcases ih x hx2 with h1 | h2
        · exact Or.inl h1
        · exact Or.inr (List.mem_cons_of_mem _ h2)

theorem lookupA_mem (l : List (List Char × LimitBound)) (k : List Char)
    (b : LimitBound) (h : lookupA l k = some b) : (k, b) ∈ l := by
  induction l with
  | nil => cases h
  | cons e t ih =>
    obtain ⟨k2, v2⟩ := e
    unfold lookupA at h
    by_cases he : k2 = k
    · rw [if_pos he] at h
      injection h with h2
      subst h2
      subst he
      exact List.mem_cons_self _ _
    · rw [if_neg he] at h
      exact List.mem_cons_of_mem _ (ih h)

/-- The property maintained for every entry of the limit map: at least one
bound present, and the entry is the parse of the limit-row cell positionally
paired with its header cell. -/
def EntryOK (pairs0 : List (Val × Val)) (x : List Char × LimitBound) : Prop :=
  (x.2.min.isSome = true ∨ x.2.max.isSome = true) ∧
    ∃ p ∈ pairs0, pyStrip (cellStr p.1) = x.1 ∧
      parse_limit_string (.str (cellStr p.2)) = (x.2.min, x.2.max)

theorem limits_foldl_inv (pairs0 : List (Val × Val)) :
    ∀ (pairs : List (Val × Val)) (acc : List (List Char × LimitBound)),
      (∀ p ∈ pairs, p ∈ pairs0) → (∀ x ∈ acc, EntryOK pairs0 x) →
      ∀ x ∈ pairs.foldl limitStep acc, EntryOK pairs0 x := by
  intro pairs
  induction pairs with
  | nil =>
    intro acc _ hacc x hx
    exact hacc x hx
  | cons p ps ih =>
    intro acc hsub hacc x hx
    rw [List.foldl_cons] at hx
    refine ih (limitStep acc p) (fun q hq => hsub q (List.mem_cons_of_mem p hq))
      ?_ x hx
    intro y hy
    unfold limitStep at hy
    by_cases hguard : (parse_limit_string (.str (cellStr p.2))).1.isSome = true ∨
        (parse_limit_string (.str (cellStr p.2))).2.isSome = true
    · rw [if_pos hguard] at hy
      rcases mem_insertA acc _ _ y hy with rfl | hmem
      · refine ⟨hguard, p, hsub p (List.mem_cons_self p ps), rfl, ?_⟩
        exact Prod.mk.eta.symm
      · exact hacc y hmem
    · rw [if_neg hguard] at hy
      exact hacc y hy

/-- C9: the limit row is the first of at most the first 20 rows containing a
cell whose lowercased text equals `control limit`; the limit map is empty when
no such row exists; when it exists, entries pair header and limit cells
positionally, are keyed by the trimmed header cell text, and every recorded
`LimitBound` has at least one of min/max present. -/
theorem extracted_limits_spec (raw : List (List Val)) (hidx : Nat) :
    (limit_idx raw = none → extracted_limits raw hidx = []) ∧
    (∀ i, limit_idx raw = some i → i < min 20 raw.length ∧
      hasCtrl (rowAt raw i) = true ∧
      ∀ j, j < i → hasCtrl (rowAt raw j) = false) ∧
    ((∀ i, i < min 20 raw.length → hasCtrl (rowAt raw i) = false) →
      limit_idx raw = none) ∧
    (∀ k b, lookupA (extracted_limits raw hidx) k = some b →
      b.min.isSome = true ∨ b.max.isSome = true) ∧
    (∀ li, limit_idx raw = some li → ∀ k b,
      lookupA (extracted_limits raw hidx) k = some b →
      ∃ p ∈ (rowAt raw hidx).zip (rowAt raw li),
        pyStrip (cellStr p.1) = k ∧
        parse_limit_string (.str (cellStr p.2)) = (b.min, b.max)) := by
  have hinv : ∀ li, limit_idx raw = some li →
      ∀ x ∈ extracted_limits raw hidx,
        EntryOK ((rowAt raw hidx).zip (rowAt raw li)) x := by
    intro li hli x hx
    unfold extracted_limits at hx
    rw [hli] at hx
    exact limits_foldl_inv _ _ [] (fun p hp => hp) (fun y hy => by cases hy) x hx
  refine ⟨?_, ?_, ?_, ?_, ?_⟩
  · intro h
    unfold extracted_limits
    rw [h]
  · intro i h
    obtain ⟨_, hb, hc, hd⟩ := limitScanF_some raw 20 0 i h
    exact ⟨hb, hc, fun j hj => hd j (Nat.zero_le j) hj⟩
  · intro h
    exact limitScanF_none raw 20 0 fun i _ h2 => h i h2
  · intro k b hkb
    cases hli : limit_idx raw with
    | none =>
      unfold extracted_limits at hkb
      rw [hli] at hkb
      cases hkb
    | some li =>
      exact (hinv li hli (k, b) (lookupA_mem _ k b hkb)).1
  · intro li hli k b hkb
    exact (hinv li hli (k, b) (lookupA_mem _ k b hkb)).2

/-- Cell text `Control Limit`. -/
def cCtrl : List Char := "Control Limit".data

/-- Cell text `6.5-8.5`. -/
def cRange : List Char := "6.5-8.5".data

/-- A concrete grid with a header row 0 and a control-limit row 1. -/
def wGridL : List (List Val) :=
  [[Val.vstr cParameters, Val.vstr cpH],
   [Val.vstr cCtrl, Val.vstr cRange]]

/-- Witness for C9: the bound recorded for `pH` on `wGridL` has at least one
bound present. -/
theorem extracted_limits_spec_witness :
    (⟨some (13 / 2), some (17 / 2)⟩ : LimitBound).min.isSome = true ∨
      (⟨some (13 / 2), some (17 / 2)⟩ : LimitBound).max.isSome = true :=
  (extracted_limits_spec wGridL 0).2.2.2.1 cpH ⟨some (13 / 2), some (17 / 2)⟩
    (by with_unfolding_all decide)

/-! ## TableLoader (`process_file` lines 124-146)

The reload of the source with the detected header is modelled directly on the
grid: the header row becomes the column names (stringified and trimmed), the
rows after it become the data.  The date coercion `pd.to_datetime` is library
code; the loader is parametrized by it. -/

/-- A loaded table: column names in order, and rows of cell values aligned
positionally with the columns. -/
structure Table where
  cols : List (List Char)
  rows : List (List Val)

/-- Cell of a row at a column index (missing cells read as NaN, which is how
pandas pads short rows). -/
def valAt (r : List Val) (j : Nat) : Val :=
  r.getD j Val.vna

/-- Write a cell of a row at a column index, padding with NaN if the row is
shorter than the target column. -/
def setAt (r : List Val) (j : Nat) (v : Val) : List Val :=
  (r ++ List.replicate (j + 1 - r.length) Val.vna).set j v

/-- Column names: the header row, stringified and trimmed
(`df.columns = [str(c).strip() for c in df.columns]`). -/
def headerCols (raw : List (List Val)) (hidx : Nat) : List (List Char) :=
  (rowAt raw hidx).map fun c => pyStrip (cellStr c)

/-- Date-column identification (`process_file` lines 136-140): default to
column 0, overridden by the first column whose lowercased name contains
`date` or `parameters`. -/
def findDateColIdx (cols : List (List Char)) : Nat :=
  match (List.range cols.length).find? (fun j =>
      isSubstrB kwDate (pyLower (cols.getD j [])) ||
      isSubstrB kwParameters (pyLower (cols.getD j []))) with
  | some j => j
  | none => 0

/-- Index of the date column of the loaded table. -/
def dateIdx (raw : List (List Val)) (hidx : Nat) : Nat :=
  findDateColIdx (headerCols raw hidx)

/-- The canonical date-column key `DATE`. -/
def DATEkey : List Char := "DATE".data

/-- The timestamp carried by a datetime cell (other cells never reach this in
the places it is used, and read as a default). -/
def tsOf : Val → TS
  | .vts t => t
  | _ => ⟨0, 0⟩

/-- Whether a cell is a (non-NaT) datetime value. -/
def isTS : Val → Bool
  | .vts _ => true
  | _ => false

/-- Row comparison by date cell, as used by `sort_values('DATE')`. -/
def rowLe (di : Nat) (r1 r2 : List Val) : Bool :=
  tsLeB (tsOf (valAt r1 di)) (tsOf (valAt r2 di))

/-- Insertion into a sorted list. -/
def insertSorted {α : Type} (le : α → α → Bool) (x : α) : List α → List α
  | [] => [x]
  | y :: ys => if le x y then x :: y :: ys else y :: insertSorted le x ys

/-- Sorting, modelling `sort_values` (which promises only sortedness, not
stability). -/
def sortBy {α : Type} (le : α → α → Bool) (l : List α) : List α :=
  l.foldr (insertSorted le) []

/-- The loader: re-interpret the grid with `hidx` as header row, trim the
column names, rename the identified date column to `DATE`, coerce its cells
with `toDT`, drop rows whose date failed to coerce, and sort ascending by
date (`process_file` lines 124-146). -/
def load_table (toDT : Val → Option TS) (raw : List (List Val)) (hidx : Nat) :
    Table :=
  let cols0 := headerCols raw hidx
  let di := findDateColIdx cols0
  let data := raw.drop (hidx + 1)
  let rows1 := data.map fun r =>
    setAt r di (match toDT (valAt r di) with
                | some t => Val.vts t
                | none => Val.vna)
  let rows2 := rows1.filter fun r => isTS (valAt r di)
  ⟨cols0.set di DATEkey, sortBy (rowLe di) rows2⟩

/-! ### Sorting lemmas -/

theorem mem_insertSorted {α : Type} (le : α → α → Bool) (x : α) :
    ∀ (l : List α) (y : α), y ∈ insertSorted le x l → y = x ∨ y ∈ l := by
  intro l
  induction l with
  | nil =>
    intro y hy
    exact Or.inl (List.mem_singleton.mp hy)
  | cons z zs ih =>
    intro y hy
    unfold insertSorted at hy
    by_cases hle : le x z
    · rw [if_pos hle] at hy
      rcases List.mem_cons.mp hy with rfl | hy2
      · exact Or.inl rfl
      · exact Or.inr hy2
    · rw [if_neg hle] at hy
      rcases List.mem_cons.mp hy with rfl | hy2
      · exact Or.inr (List.mem_cons_self _ _)
      · rcases ih y hy2 with h1 | h2
        · exact Or.inl h1
        · exact Or.inr (List.mem_cons_of_mem _ h2)

theorem insertSorted_perm {α : Type} (le : α → α → Bool) (x : α) :
    ∀ l : List α, List.Perm (insertSorted le x l) (x :: l) := by
  intro l
  induction l with
  | nil => exact List.Perm.refl _
  | cons z zs ih =>
    unfold insertSorted
    by_cases hle : le x z
    · rw [if_pos hle]
    · rw [if_neg hle]
      exact (List.Perm.cons z ih).trans (List.Perm.swap x z zs)

theorem sortBy_perm {α : Type} (le : α → α → Bool) :
    ∀ l : List α, List.Perm (sortBy le l) l := by
  intro l
  induction l with
  | nil => exact List.Perm.refl _
  | cons z zs ih =>
    unfold sortBy
    rw [List.foldr_cons]
    exact (insertSorted_perm le z _).trans (List.Perm.cons z ih)

theorem pairwise_insertSorted {α : Type} (le : α → α → Bool)
    (htot : ∀ a b, le a b = true ∨ le b a = true)
    (htrans : ∀ a b c, le a b = true → le b c = true → le a c = true) (x : α) :
    ∀ l : List α, l.Pairwise (fun a b => le a b = true) →
      (insertSorted le x l).Pairwise (fun a b => le a b = true) := by
  intro l
  induction l with
  | nil =>
    intro _
    exact List.pairwise_singleton _ x
  | cons z zs ih =>
    intro hpw
    rw [List.pairwise_cons] at hpw
    unfold insertSorted
    by_cases hle : le x z
    · rw [if_pos hle]
      rw [List.pairwise_cons]
      constructor
      · intro y hy
        rcases List.mem_cons.mp hy with rfl | hy2
        · exact hle
        · exact htrans x z y hle (hpw.1 y hy2)
      · rw [List.pairwise_cons]
        exact hpw
    · rw [if_neg hle]
      rw [List.pairwise_cons]
      constructor
      · intro y hy
        rcases mem_insertSorted le x _ y hy with rfl | hy2
        · rcases htot y z with h1 | h2
          · exact absurd h1 hle
          · exact h2
        · exact hpw.1 y hy2
      · exact ih hpw.2

theorem pairwise_sortBy {α : Type} (le : α → α → Bool)
    (htot : ∀ a b, le a b = true ∨ le b a = true)
    (htrans : ∀ a b c, le a b = true → le b c = true → le a c = true) :
    ∀ l : List α, (sortBy le l).Pairwise (fun a b => le a b = true) := by
  intro l
  induction l with
  | nil => exact List.Pairwise.nil
  | cons z zs ih =>
    unfold sortBy
    rw [List.foldr_cons]
    exact pairwise_insertSorted le htot htrans z _ ih

theorem tsLeB_total (a b : TS) : tsLeB a b = true ∨ tsLeB b a = true := by
  unfold tsLeB
  simp only [Bool.or_eq_true, Bool.and_eq_true, decide_eq_true_eq]
  omega

theorem tsLeB_trans (a b c : TS) (h1 : tsLeB a b = true) (h2 : tsLeB b c = true) :
    tsLeB a c = true := by
  unfold tsLeB at h1 h2 ⊢
  simp only [Bool.or_eq_true, Bool.and_eq_true, decide_eq_true_eq] at h1 h2 ⊢
  omega

theorem rowLe_total (di : Nat) (r1 r2 : List Val) :
    rowLe di r1 r2 = true ∨ rowLe di r2 r1 = true :=
  tsLeB_total _ _

theorem rowLe_trans (di : Nat) (r1 r2 r3 : List Val)
    (h1 : rowLe di r1 r2 = true) (h2 : rowLe di r2 r3 = true) :
    rowLe di r1 r3 = true :=
  tsLeB_trans _ _ _ h1 h2

theorem valAt_setAt (r : List Val) (j : Nat) (v : Val) :
    valAt (setAt r j v) j = v := by
  unfold valAt setAt
  have hlen : j < (r ++ List.replicate (j + 1 - r.length) Val.vna).length := by
    rw [List.length_append, List.length_replicate]
    omega
  rw [List.getD_eq_getElem?_getD, List.getElem?_set_self (by simpa using hlen)]
  rfl

/-! ### C5 -/

/-- C5: for every grid, header index and date coercion, every row of the
loaded table has a coerced (non-null) date in the date column — rows whose
date cell failed coercion were dropped — and the rows are sorted ascending by
that date. -/
theorem load_table_spec (toDT : Val → Option TS) (raw : List (List Val))
    (hidx : Nat) :
    (∀ r ∈ (load_table toDT raw hidx).rows,
      isTS (valAt r (dateIdx raw hidx)) = true) ∧
    (load_table toDT raw hidx).rows.Pairwise
      (fun r1 r2 => rowLe (dateIdx raw hidx) r1 r2 = true) := by
  constructor
  · intro r hr
    have hperm := sortBy_perm (rowLe (dateIdx raw hidx))
      (((raw.drop (hidx + 1)).map fun r2 =>
        setAt r2 (dateIdx raw hidx)
          (match toDT (valAt r2 (dateIdx raw hidx)) with
           | some t => Val.vts t
           | none => Val.vna)).filter
        fun r2 => isTS (valAt r2 (dateIdx raw hidx)))
    have hr2 := hperm.mem_iff.mp hr
    exact (List.mem_filter.mp hr2).2
  · exact pairwise_sortBy _ (rowLe_total _) (rowLe_trans _) _

/-! ### C6 -/

/-- Modelled from the spec: the date coercion is performed by
`pd.to_datetime(..., errors='coerce')`, library code that is not part of
`src/`.  Per the spec, "each cell in the date column is parsed as a calendar
date; parse failures become an absent-date marker, not an error".  Calendar
dates are modelled as day numbers: a cell coerces when its text form is a
nonempty digit string, and the result carries no time component. -/
def to_datetime_spec (v : Val) : Option TS :=
  if (cellStr v) ≠ [] ∧ ∀ c ∈ cellStr v, c.isDigit = true then
    some ⟨digitsVal (cellStr v), 0⟩
  else none

/-- C6: the date coercion parses cells as calendar dates (every coerced value
has a zero time component), and consequently every row of the loaded table
carries a pure calendar date in its date column. -/
theorem load_table_calendar_dates (raw : List (List Val)) (hidx : Nat) :
    (∀ v t, to_datetime_spec v = some t → t.tod = 0) ∧
    (∀ r ∈ (load_table to_datetime_spec raw hidx).rows,
      ∃ d : Nat, valAt r (dateIdx raw hidx) = Val.vts ⟨d, 0⟩) := by
  have htod : ∀ v t, to_datetime_spec v = some t → t.tod = 0 := by
    intro v t h
    unfold to_datetime_spec at h
    by_cases hc : (cellStr v) ≠ [] ∧ ∀ c ∈ cellStr v, c.isDigit = true
    · rw [if_pos hc] at h
      injection h with h2
      rw [← h2]
    · rw [if_neg hc] at h
      cases h
  refine ⟨htod, ?_⟩
  intro r hr
  have hperm := sortBy_perm (rowLe (dateIdx raw hidx))
    (((raw.drop (hidx + 1)).map fun r2 =>
      setAt r2 (dateIdx raw hidx)
        (match to_datetime_spec (valAt r2 (dateIdx raw hidx)) with
         | some t => Val.vts t
         | none => Val.vna)).filter
      fun r2 => isTS (valAt r2 (dateIdx raw hidx)))
  have hr2 := hperm.mem_iff.mp hr
  have hfil := List.mem_filter.mp hr2
  obtain ⟨r0, _, hr0⟩ := List.mem_map.mp hfil.1
  have hts := hfil.2
  rw [← hr0] at hts ⊢
  rw [valAt_setAt] at hts ⊢
  cases hdt : to_datetime_spec (valAt r0 (dateIdx raw hidx)) with
  | none =>
    rw [hdt] at hts
    cases hts
  | some t =>
    refine ⟨t.day, ?_⟩
    have h0 := htod _ _ hdt
    have ht2 : t = ⟨t.day, 0⟩ := by
      cases t
      simp_all
    show Val.vts t = Val.vts ⟨t.day, 0⟩
    rw [← ht2]

/-! ## DataQualityAnalyzer (`analyze_data_quality`, src/app.py lines 43-87) -/

/-- The quality report. -/
structure QReport where
  date_gaps : List Nat
  missing_values : List (List Char × Nat)
  total_days : Nat
  date_range : Option TS × Option TS
deriving DecidableEq

/-- The report returned for an empty table or a table without a `DATE`
column. -/
def emptyReport : QReport :=
  ⟨[], [], 0, (none, none)⟩

/-- Index of the `DATE` column in a loaded table (0 if absent; only used when
it is present). -/
def dateIdxT (t : Table) : Nat :=
  match (List.range t.cols.length).find?
      (fun j => decide (t.cols.getD j [] = DATEkey)) with
  | some j => j
  | none => 0

/-- Min of two timestamps. -/
def tsMinB (a b : TS) : TS :=
  if tsLeB a b then a else b

/-- Max of two timestamps. -/
def tsMaxB (a b : TS) : TS :=
  if tsLeB a b then b else a

/-- Dict assignment for the `missing_values` dictionary. -/
def insertN : List (List Char × Nat) → List Char → Nat → List (List Char × Nat)
  | [], k, v => [(k, v)]
  | (k2, v2) :: t, k, v =>
    if k2 = k then (k, v) :: t else (k2, v2) :: insertN t k v

/-- Dict lookup for the `missing_values` dictionary. -/
def lookupN : List (List Char × Nat) → List Char → Option Nat
  | [], _ => none
  | (k2, v2) :: t, k => if k2 = k then some v2 else lookupN t k

/-- The calendar days covered by `pd.date_range(min_date, max_date, freq='D')`
(`.date()` of each generated timestamp): the generated timestamps are
`min + k` days, keeping `min`'s time of day, for as long as they do not exceed
`max`; when the minimum timestamp's time-of-day exceeds the maximum's, the last
calendar day is not reached. -/
def fullRangeDays : List TS → List Nat
  | [] => []
  | d0 :: ds =>
    (List.range
        (if (ds.foldl tsMinB d0).tod ≤ (ds.foldl tsMaxB d0).tod then
          (ds.foldl tsMaxB d0).day - (ds.foldl tsMinB d0).day + 1
        else (ds.foldl tsMaxB d0).day - (ds.foldl tsMinB d0).day)).map
      fun k => (ds.foldl tsMinB d0).day + k

/-- The per-column missing-value loop of `analyze_data_quality`
(lines 77-85): for every non-`DATE` column, count the rows whose value fails
numeric coercion, and record the column only when the count is positive. -/
def missingFold (cols : List (List Char)) (rows : List (List Val)) :
    List (List Char × Nat) :=
  (List.range cols.length).foldl
    (fun acc j =>
      if cols.getD j [] = DATEkey then acc
      else
        if 0 < rows.countP (fun r => (to_numeric (valAt r j)).isNone) then
          insertN acc (cols.getD j [])
            (rows.countP fun r => (to_numeric (valAt r j)).isNone)
        else acc) []

/-- `analyze_data_quality` (src/app.py lines 43-87): all-empty report for an
empty table or a table without a `DATE` column; otherwise sort by date, compute
the date range, the calendar-day gaps against the full daily range, and the
per-column missing-value counts. -/
def analyze_data_quality (t : Table) : QReport :=
  if t.rows.isEmpty = true ∨ DATEkey ∉ t.cols then emptyReport
  else
    let di := dateIdxT t
    let rows := sortBy (rowLe di) t.rows
    let dates := rows.map fun r => tsOf (valAt r di)
    let existing := dates.map fun dd => dd.day
    let gaps := (fullRangeDays dates).filter fun x => !(existing.contains x)
    let rng : Option TS × Option TS :=
      match dates with
      | [] => (none, none)
      | d0 :: ds => (some (ds.foldl tsMinB d0), some (ds.foldl tsMaxB d0))
    ⟨gaps, missingFold t.cols rows, (fullRangeDays dates).length, rng⟩

/-- C10: a table without the canonical `DATE` column — even with rows — gets
the same all-empty report as an empty table (no date range, no gaps, no
missing-value counts), not an error. -/
theorem analyze_no_date_col (t tE : Table) (h : DATEkey ∉ t.cols)
    (hE : tE.rows = []) :
    analyze_data_quality t = analyze_data_quality tE ∧
    analyze_data_quality t = emptyReport ∧
    (analyze_data_quality t).date_range = (none, none) ∧
    (analyze_data_quality t).date_gaps = [] ∧
    (analyze_data_quality t).missing_values = [] := by
  have h1 : analyze_data_quality t = emptyReport := by
    unfold analyze_data_quality
    rw [if_pos (Or.inr h)]
  have h2 : analyze_data_quality tE = emptyReport := by
    unfold analyze_data_quality
    rw [if_pos (Or.inl (List.isEmpty_iff.mpr hE))]
  refine ⟨h1.trans h2.symm, h1, ?_, ?_, ?_⟩ <;> rw [h1] <;> rfl

/-- Column name `pH` as trimmed text. -/
def colPh : List Char := "pH".data

/-- A one-column, one-row table without a `DATE` column. -/
def tNoDate : Table :=
  ⟨[colPh], [[Val.vnum 7]]⟩

/-- An empty table with a `DATE` column. -/
def tEmpty : Table :=
  ⟨[DATEkey, colPh], []⟩

/-- Witness for C10 on a concrete table with a row but no `DATE` column. -/
theorem analyze_no_date_col_witness :
    analyze_data_quality tNoDate = analyze_data_quality tEmpty ∧
    analyze_data_quality tNoDate = emptyReport ∧
    (analyze_data_quality tNoDate).date_range = (none, none) ∧
    (analyze_data_quality tNoDate).date_gaps = [] ∧
    (analyze_data_quality tNoDate).missing_values = [] :=
  analyze_no_date_col tNoDate tEmpty (by decide) rfl

/-! ### Min/max folds over timestamps -/

theorem tsLeB_refl (a : TS) : tsLeB a a = true := by
  unfold tsLeB
  simp

theorem tsLeB_iff (a b : TS) : tsLeB a b = true ↔
    (a.day < b.day ∨ (a.day = b.day ∧ a.tod ≤ b.tod)) := by
  unfold tsLeB
  simp

theorem tsMinB_le_left (a b : TS) : tsLeB (tsMinB a b) a = true := by
  unfold tsMinB
  by_cases h : tsLeB a b
  · rw [if_pos h]
    exact tsLeB_refl a
  · rw [if_neg h]
    rcases tsLeB_total a b with h1 | h2
    · exact absurd h1 h
    · exact h2

theorem tsMinB_le_right (a b : TS) : tsLeB (tsMinB a b) b = true := by
  unfold tsMinB
  by_cases h : tsLeB a b
  · rw [if_pos h]
    exact h
  · rw [if_neg h]
    exact tsLeB_refl b

theorem tsMinB_cases (a b : TS) : tsMinB a b = a ∨ tsMinB a b = b := by
  unfold tsMinB
  by_cases h : tsLeB a b
  · rw [if_pos h]
    exact Or.inl rfl
  · rw [if_neg h]
    exact Or.inr rfl

theorem tsMaxB_ge_left (a b : TS) : tsLeB a (tsMaxB a b) = true := by
  unfold tsMaxB
  by_cases h : tsLeB a b
  · rw [if_pos h]
    exact h
  · rw [if_neg h]
    exact tsLeB_refl a

theorem tsMaxB_ge_right (a b : TS) : tsLeB b (tsMaxB a b) = true := by
  unfold tsMaxB
  by_cases h : tsLeB a b
  · rw [if_pos h]
    exact tsLeB_refl b
  · rw [if_neg h]
    rcases tsLeB_total a b with h1 | h2
    · exact absurd h1 h
    · exact h2

theorem tsMaxB_cases (a b : TS) : tsMaxB a b = a ∨ tsMaxB a b = b := by
  unfold tsMaxB
  by_cases h : tsLeB a b
  · rw [if_pos h]
    exact Or.inr rfl
  · rw [if_neg h]
    exact Or.inl rfl

theorem foldl_tsMinB_mem : ∀ (ds : List TS) (d0 : TS),
    ds.foldl tsMinB d0 ∈ d0 :: ds := by
  intro ds
  induction ds with
  | nil =>
    intro d0
    exact List.mem_singleton.mpr rfl
  | cons e es ih =>
    intro d0
    rw [List.foldl_cons]
    have h := ih (tsMinB d0 e)
    rcases List.mem_cons.mp h with h1 | h2
    · rw [h1]
      rcases tsMinB_cases d0 e with hc | hc
      · rw [hc]
        exact List.mem_cons_self _ _
      · rw [hc]
        exact List.mem_cons_of_mem _ (List.mem_cons_self _ _)
    · exact List.mem_cons_of_mem _ (List.mem_cons_of_mem _ h2)

theorem foldl_tsMinB_le : ∀ (ds : List TS) (d0 x : TS), x ∈ d0 :: ds →
    tsLeB (ds.foldl tsMinB d0) x = true := by
  intro ds
  induction ds with
  | nil =>
    intro d0 x hx
    rcases List.mem_singleton.mp hx with rfl
    exact tsLeB_refl x
  | cons e es ih =>
    intro d0 x hx
    rw [List.foldl_cons]
    have hm : tsLeB (es.foldl tsMinB (tsMinB d0 e)) (tsMinB d0 e) = true :=
      ih (tsMinB d0 e) _ (List.mem_cons_self _ _)
    rcases List.mem_cons.mp hx with rfl | hx2
    · exact tsLeB_trans _ _ _ hm (tsMinB_le_left x e)
    · rcases List.mem_cons.mp hx2 with rfl | hx3
      · exact tsLeB_trans _ _ _ hm (tsMinB_le_right d0 x)
      · exact ih (tsMinB d0 e) x (List.mem_cons_of_mem _ hx3)

theorem foldl_tsMaxB_mem : ∀ (ds : List TS) (d0 : TS),
    ds.foldl tsMaxB d0 ∈ d0 :: ds := by
  intro ds
  induction ds with
  | nil =>
    intro d0
    exact List.mem_singleton.mpr rfl
  | cons e es ih =>
    intro d0
    rw [List.foldl_cons]
    have h := ih (tsMaxB d0 e)
    rcases List.mem_cons.mp h with h1 | h2
    · rw [h1]
      rcases tsMaxB_cases d0 e with hc | hc
      · rw [hc]
        exact List.mem_cons_self _ _
      · rw [hc]
        exact List.mem_cons_of_mem _ (List.mem_cons_self _ _)
    · exact List.mem_cons_of_mem _ (List.mem_cons_of_mem _ h2)

theorem foldl_tsMaxB_ge : ∀ (ds : List TS) (d0 x : TS), x ∈ d0 :: ds →
    tsLeB x (ds.foldl tsMaxB d0) = true := by
  intro ds
  induction ds with
  | nil =>
    intro d0 x hx
    rcases List.mem_singleton.mp hx with rfl
    exact tsLeB_refl x
  | cons e es ih =>
    intro d0 x hx
    rw [List.foldl_cons]
    have hm : tsLeB (tsMaxB d0 e) (es.foldl tsMaxB (tsMaxB d0 e)) = true :=
      ih (tsMaxB d0 e) _ (List.mem_cons_self _ _)
    rcases List.mem_cons.mp hx with rfl | hx2
    · exact tsLeB_trans _ _ _ (tsMaxB_ge_left x e) hm
    · rcases List.mem_cons.mp hx2 with rfl | hx3
      · exact tsLeB_trans _ _ _ (tsMaxB_ge_right d0 x) hm
      · exact ih (tsMaxB d0 e) x (List.mem_cons_of_mem _ hx3)

theorem mem_fullRangeDays (d0 : TS) (ds : List TS) (x : Nat) :
    x ∈ fullRangeDays (d0 :: ds) ↔
      ((ds.foldl tsMinB d0).day ≤ x ∧
        x < (ds.foldl tsMinB d0).day +
          (if (ds.foldl tsMinB d0).tod ≤ (ds.foldl tsMaxB d0).tod then
            (ds.foldl tsMaxB d0).day - (ds.foldl tsMinB d0).day + 1
          else (ds.foldl tsMaxB d0).day - (ds.foldl tsMinB d0).day)) := by
  unfold fullRangeDays
  rw [List.mem_map]
  constructor
  · rintro ⟨k, hk, rfl⟩
    rw [List.mem_range] at hk
    omega
  · rintro ⟨h1, h2⟩
    refine ⟨x - (ds.foldl tsMinB d0).day, ?_, by omega⟩
    rw [List.mem_range]
    omega

/-- Characterization of the computed date gaps over any nonempty date list:
a day is a gap exactly when it lies between some present day and some present
day (i.e. between the minimum and maximum) and is itself absent. -/
theorem gaps_char (dates : List TS) (hne : dates ≠ []) (d : Nat) :
    d ∈ (fullRangeDays dates).filter
        (fun x => !((dates.map fun dd => dd.day).contains x)) ↔
      (d ∉ dates.map (fun dd => dd.day) ∧
       (∃ a ∈ dates.map fun dd => dd.day, a ≤ d) ∧
       (∃ b ∈ dates.map fun dd => dd.day, d ≤ b)) := by
  cases dates with
  | nil => exact absurd rfl hne
  | cons d0 ds =>
    have hnm : tsLeB (ds.foldl tsMinB d0) (ds.foldl tsMaxB d0) = true :=
      foldl_tsMinB_le ds d0 _ (foldl_tsMaxB_mem ds d0)
    have harith := (tsLeB_iff _ _).mp hnm
    have hcontains : ∀ x : Nat,
        (!(((d0 :: ds).map fun dd => dd.day).contains x)) = true ↔
          x ∉ (d0 :: ds).map fun dd => dd.day := by
      intro x
      simp
    rw [List.mem_filter, mem_fullRangeDays]
    constructor
    · rintro ⟨⟨h1, h2⟩, h3⟩
      have hnotin := (hcontains d).mp h3
      refine ⟨hnotin,
        ⟨(ds.foldl tsMinB d0).day,
          List.mem_map_of_mem _ (foldl_tsMinB_mem ds d0), h1⟩,
        ⟨(ds.foldl tsMaxB d0).day,
          List.mem_map_of_mem _ (foldl_tsMaxB_mem ds d0), ?_⟩⟩
      by_cases hc : (ds.foldl tsMinB d0).tod ≤ (ds.foldl tsMaxB d0).tod
      · rw [if_pos hc] at h2
        omega
      · rw [if_neg hc] at h2
        omega
    · rintro ⟨hnotin, ⟨a, ha, had⟩, ⟨b, hb, hdb⟩⟩
      obtain ⟨tsa, htsa, rfl⟩ := List.mem_map.mp ha
      obtain ⟨tsb, htsb, rfl⟩ := List.mem_map.mp hb
      have ha1 := (tsLeB_iff _ _).mp (foldl_tsMinB_le ds d0 tsa htsa)
      have hb1 := (tsLeB_iff _ _).mp (foldl_tsMaxB_ge ds d0 tsb htsb)
      have hdne : d ≠ (ds.foldl tsMaxB d0).day := by
        intro he
        rw [he] at hnotin
        exact hnotin (List.mem_map_of_mem _ (foldl_tsMaxB_mem ds d0))
      refine ⟨⟨by omega, ?_⟩, (hcontains d).mpr hnotin⟩
      by_cases hc : (ds.foldl tsMinB d0).tod ≤ (ds.foldl tsMaxB d0).tod
      · rw [if_pos hc]
        omega
      · rw [if_neg hc]
        omega

/-- C4: for every non-empty table with a `DATE` column, the report's
missing-dates set contains a calendar day exactly when that day lies between
the table's minimum and maximum dates (inclusive) and no row carries it —
i.e. the full daily range minus the days present. -/
theorem analyze_date_gaps (t : Table) (hne : t.rows ≠ []) (hdc : DATEkey ∈ t.cols)
    (d : Nat) :
    d ∈ (analyze_data_quality t).date_gaps ↔
      (d ∉ t.rows.map (fun r => (tsOf (valAt r (dateIdxT t))).day) ∧
       (∃ a ∈ t.rows.map fun r => (tsOf (valAt r (dateIdxT t))).day, a ≤ d) ∧
       (∃ b ∈ t.rows.map fun r => (tsOf (valAt r (dateIdxT t))).day, d ≤ b)) := by
  have hcond : ¬ (t.rows.isEmpty = true ∨ DATEkey ∉ t.cols) := by
    rintro (h1 | h2)
    · exact hne (List.isEmpty_iff.mp h1)
    · exact h2 hdc
  have hgaps : (analyze_data_quality t).date_gaps =
      (fullRangeDays ((sortBy (rowLe (dateIdxT t)) t.rows).map fun r =>
          tsOf (valAt r (dateIdxT t)))).filter
        (fun x => !(((sortBy (rowLe (dateIdxT t)) t.rows).map fun r =>
            tsOf (valAt r (dateIdxT t))).map (fun dd => dd.day) |>.contains x)) := by
    unfold analyze_data_quality
    rw [if_neg hcond]
  have hsne : (sortBy (rowLe (dateIdxT t)) t.rows).map
      (fun r => tsOf (valAt r (dateIdxT t))) ≠ [] := by
    intro hE
    rw [List.map_eq_nil_iff] at hE
    have hp := sortBy_perm (rowLe (dateIdxT t)) t.rows
    rw [hE] at hp
    exact hne hp.nil_eq.symm
  have hpermdays : List.Perm
      (((sortBy (rowLe (dateIdxT t)) t.rows).map fun r =>
        tsOf (valAt r (dateIdxT t))).map fun dd => dd.day)
      (t.rows.map fun r => (tsOf (valAt r (dateIdxT t))).day) := by
    rw [List.map_map]
    exact (sortBy_perm (rowLe (dateIdxT t)) t.rows).map _
  rw [hgaps, gaps_char _ hsne d]
  simp only [hpermdays.mem_iff]

/-- A concrete table covering days 1 to 5 with rows only on days 1, 3, 5. -/
def tJan : Table :=
  ⟨[DATEkey, colPh],
   [[Val.vts ⟨1, 0⟩, Val.vnum 7],
    [Val.vts ⟨3, 0⟩, Val.vnum 7],
    [Val.vts ⟨5, 0⟩, Val.vnum 8]]⟩

/-- Witness for C4: on `tJan` the day 2 is reported missing, and the full gap
list is exactly the days 2 and 4. -/
theorem analyze_date_gaps_witness :
    2 ∈ (analyze_data_quality tJan).date_gaps ∧
      (analyze_data_quality tJan).date_gaps = [2, 4] :=
  ⟨(analyze_date_gaps tJan (by decide) (by decide) 2).mpr
      ⟨by decide, ⟨1, by decide, by decide⟩, ⟨5, by decide, by decide⟩⟩,
    by with_unfolding_all decide⟩

/-! ### C8: missing-value counts -/

theorem lookupN_insertN (l : List (List Char × Nat)) (k : List Char) (v : Nat)
    (key : List Char) :
    lookupN (insertN l k v) key = if k = key then some v else lookupN l key := by
  induction l with
  | nil => rfl
  | cons e t2 ih =>
    obtain ⟨k2, v2⟩ := e
    unfold insertN
    by_cases h2 : k2 = k
    · subst h2
      rw [if_pos rfl]
      unfold lookupN
      by_cases hk : k2 = key
      · rw [if_pos hk, if_pos hk]
      · rw [if_neg hk, if_neg hk, if_neg hk]
    · rw [if_neg h2]
      unfold lookupN
      by_cases hk : k2 = key
      · rw [if_pos hk, if_pos hk]
        rw [if_neg (by rw [← hk] at *; exact fun he => h2 he.symm)]
      · rw [if_neg hk, if_neg hk, ih]

theorem lookupN_missingFold_aux (cols : List (List Char)) (rows : List (List Val))
    (j : Nat) (hnd : cols.Nodup) (hj : j < cols.length)
    (hcd : cols.getD j [] ≠ DATEkey) :
    ∀ n, n ≤ cols.length →
      lookupN ((List.range n).foldl
        (fun acc j2 =>
          if cols.getD j2 [] = DATEkey then acc
          else
            if 0 < rows.countP (fun r => (to_numeric (valAt r j2)).isNone) then
              insertN acc (cols.getD j2 [])
                (rows.countP fun r => (to_numeric (valAt r j2)).isNone)
            else acc) []) (cols.getD j []) =
      (if j < n then
        (if rows.countP (fun r => (to_numeric (valAt r j)).isNone) = 0 then none
         else some (rows.countP fun r => (to_numeric (valAt r j)).isNone))
      else none) := by
  intro n
  induction n with
  | zero =>
    intro _
    rw [if_neg (by omega)]
    rfl
  | succ n ih =>
    intro hn
    rw [List.range_succ, List.foldl_append, List.foldl_cons, List.foldl_nil]
    have hprev := ih (by omega)
    by_cases hDn : cols.getD n [] = DATEkey
    · rw [if_pos hDn, hprev]
      have hju : j ≠ n := by
        intro he
        rw [he] at hcd
        exact hcd hDn
      by_cases hj2 : j < n
      · rw [if_pos hj2, if_pos (show j < n + 1 by omega)]
      · rw [if_neg hj2, if_neg (show ¬ j < n + 1 by omega)]
    · rw [if_neg hDn]
      by_cases hcnt : 0 < rows.countP fun r => (to_numeric (valAt r n)).isNone
      · rw [if_pos hcnt, lookupN_insertN, hprev]
        by_cases hjn : j = n
        · subst hjn
          rw [if_pos rfl, if_pos (Nat.lt_succ_self _),
            if_neg (Nat.pos_iff_ne_zero.mp hcnt)]
        · have hkey : cols.getD n [] ≠ cols.getD j [] := by
            intro he
            have e1 : cols.getD n [] = cols[n] := by
              rw [List.getD_eq_getElem?_getD, List.getElem?_eq_getElem (by omega)]
              rfl
            have e2 : cols.getD j [] = cols[j] := by
              rw [List.getD_eq_getElem?_getD, List.getElem?_eq_getElem hj]
              rfl
            rw [e1, e2] at he
            exact hjn ((hnd.getElem_inj_iff).mp he).symm
          rw [if_neg hkey]
          by_cases hj2 : j < n
          · rw [if_pos hj2, if_pos (show j < n + 1 by omega)]
          · rw [if_neg hj2, if_neg (show ¬ j < n + 1 by omega)]
      · rw [if_neg hcnt, hprev]
        by_cases hjn : j = n
        · subst hjn
          rw [if_neg (Nat.lt_irrefl _), if_pos (Nat.lt_succ_self _),
            if_pos (Nat.eq_zero_of_not_pos hcnt)]
        · by_cases hj2 : j < n
          · rw [if_pos hj2, if_pos (show j < n + 1 by omega)]
          · rw [if_neg hj2, if_neg (show ¬ j < n + 1 by omega)]

/-- C8: for every non-empty table with a `DATE` column and unique column
names, the `missing_value_counts` entry of a non-date column equals the number
of rows whose value in that column fails numeric coercion, and the column is
omitted (lookup gives `none`) exactly when that count is zero. -/
theorem analyze_missing_values (t : Table) (j : Nat) (hj : j < t.cols.length)
    (hnd : t.cols.Nodup) (hcd : t.cols.getD j [] ≠ DATEkey)
    (hne : t.rows ≠ []) (hdc : DATEkey ∈ t.cols) :
    lookupN (analyze_data_quality t).missing_values (t.cols.getD j []) =
      (if t.rows.countP (fun r => (to_numeric (valAt r j)).isNone) = 0 then none
       else some (t.rows.countP fun r => (to_numeric (valAt r j)).isNone)) := by
  have hcond : ¬ (t.rows.isEmpty = true ∨ DATEkey ∉ t.cols) := by
    rintro (h1 | h2)
    · exact hne (List.isEmpty_iff.mp h1)
    · exact h2 hdc
  have hmv : (analyze_data_quality t).missing_values =
      missingFold t.cols (sortBy (rowLe (dateIdxT t)) t.rows) := by
    unfold analyze_data_quality
    rw [if_neg hcond]
  rw [hmv]
  unfold missingFold
  rw [lookupN_missingFold_aux t.cols (sortBy (rowLe (dateIdxT t)) t.rows) j hnd hj
    hcd t.cols.length (le_refl _)]
  rw [if_pos hj]
  have hce : ∀ j2 : Nat,
      (sortBy (rowLe (dateIdxT t)) t.rows).countP
          (fun r => (to_numeric (valAt r j2)).isNone) =
        t.rows.countP fun r => (to_numeric (valAt r j2)).isNone := by
    intro j2
    exact (sortBy_perm (rowLe (dateIdxT t)) t.rows).countP_eq _
  rw [hce]

/-- Cell text `Nil`. -/
def cNil : List Char := "Nil".data

/-- The second column's name in the C8 witness table. -/
def colB : List Char := "col".data

/-- A concrete table whose `col` column holds `[7.2, "Nil", "", 6.9]`. -/
def tMiss : Table :=
  ⟨[DATEkey, colB],
   [[Val.vts ⟨1, 0⟩, Val.vnum (72 / 10)],
    [Val.vts ⟨2, 0⟩, Val.vstr cNil],
    [Val.vts ⟨3, 0⟩, Val.vstr []],
    [Val.vts ⟨4, 0⟩, Val.vnum (69 / 10)]]⟩

/-- Witness for C8: the `col` column of `tMiss` is reported with exactly 2
missing values. -/
theorem analyze_missing_values_witness :
    lookupN (analyze_data_quality tMiss).missing_values (tMiss.cols.getD 1 []) =
      some 2 := by
  have h := analyze_missing_values tMiss 1 (by decide) (by decide)
    (by decide) (by decide) (by decide)
  have hc : tMiss.rows.countP (fun r => (to_numeric (valAt r 1)).isNone) = 2 := by
    with_unfolding_all decide
  rw [hc] at h
  simpa using h

/-! ## LimitViolationChecker

Modelled from the spec: the spec's §4.5 `LimitViolationChecker` (`check(table,
limit_map) -> ordered sequence of Violation`) belongs to the repository's core
but no implementation of it is present under `src/`; the definitions below
follow the spec's words: for every column present in both the table and the
limit map, coerce each row's value to numeric (non-numeric rows are skipped),
emit a max-violation when the value strictly exceeds the max bound (if set)
and a min-violation when it is strictly below the min bound (if set), in
row-then-column scan order. -/

/-- One out-of-bound observation: date, parameter name, observed value, which
bound was crossed (`crossedMax = true` for the max bound), and the bound
value. -/
structure Violation where
  date : TS
  param : List Char
  observed : ℚ
  crossedMax : Bool
  bound : ℚ
deriving DecidableEq

/-- Whether a coerced value is a max-violation against a bound. -/
def maxViolB (b : LimitBound) (o : Option ℚ) : Bool :=
  match o, b.max with
  | some v, some m => decide (m < v)
  | _, _ => false

/-- Whether a coerced value is a min-violation against a bound. -/
def minViolB (b : LimitBound) (o : Option ℚ) : Bool :=
  match o, b.min with
  | some v, some m => decide (v < m)
  | _, _ => false

/-- Modelled from the spec: the violations contributed by one row and one
column. -/
def rowColViols (limits : List (List Char × LimitBound)) (di : Nat)
    (cols : List (List Char)) (r : List Val) (j : Nat) : List Violation :=
  match lookupA limits (cols.getD j []) with
  | none => []
  | some b =>
    match to_numeric (valAt r j) with
    | none => []
    | some v =>
      (match b.max with
       | some mx =>
         if mx < v then [⟨tsOf (valAt r di), cols.getD j [], v, true, mx⟩]
         else []
       | none => []) ++
      (match b.min with
       | some mn =>
         if v < mn then [⟨tsOf (valAt r di), cols.getD j [], v, false, mn⟩]
         else []
       | none => [])

/-- Modelled from the spec: the violations contributed by one row, scanning
the columns in order. -/
def rowViols (limits : List (List Char × LimitBound)) (di : Nat)
    (cols : List (List Char)) (r : List Val) : List Violation :=
  (List.range cols.length).flatMap (rowColViols limits di cols r)

/-- Modelled from the spec: `check(table, limit_map)`, in row-then-column
scan order. -/
def check_limits (t : Table) (limits : List (List Char × LimitBound)) :
    List Violation :=
  t.rows.flatMap (rowViols limits (dateIdxT t) t.cols)

/-- Filter for max-violations of a given column. -/
def isMaxFor (c : List Char) (v : Violation) : Bool :=
  decide (v.param = c) && v.crossedMax

/-- Filter for min-violations of a given column. -/
def isMinFor (c : List Char) (v : Violation) : Bool :=
  decide (v.param = c) && !v.crossedMax

theorem countP_flatMap {α β : Type} (l : List α) (f : α → List β) (p : β → Bool) :
    (l.flatMap f).countP p = (l.map fun x => (f x).countP p).sum := by
  induction l with
  | nil => rfl
  | cons a as ih =>
    rw [List.flatMap_cons, List.countP_append, List.map_cons, List.sum_cons, ih]

theorem sum_map_range_zero (f : Nat → Nat) :
    ∀ n, (∀ k, k < n → f k = 0) → ((List.range n).map f).sum = 0 := by
  intro n
  induction n with
  | zero =>
    intro _
    rfl
  | succ n ih =>
    intro h
    rw [List.range_succ, List.map_append, List.sum_append,
      ih fun k hk => h k (by omega)]
    simp [h n (by omega)]

theorem sum_map_range_single (f : Nat → Nat) (n j : Nat) (hj : j < n)
    (h0 : ∀ k, k < n → k ≠ j → f k = 0) :
    ((List.range n).map f).sum = f j := by
  induction n with
  | zero => omega
  | succ n ih =>
    rw [List.range_succ, List.map_append, List.sum_append]
    by_cases hjn : j = n
    · subst hjn
      rw [sum_map_range_zero f j fun k hk => h0 k (by omega) (by omega)]
      simp
    · rw [ih (by omega) fun k h1 h2 => h0 k (by omega) h2]
      simp [h0 n (by omega) fun he => hjn he.symm]

theorem countP_eq_sum_ind {α : Type} (l : List α) (p : α → Bool) :
    l.countP p = (l.map fun x => if p x then 1 else 0).sum := by
  induction l with
  | nil => rfl
  | cons a as ih =>
    rw [List.countP_cons, List.map_cons, List.sum_cons, ih]
    by_cases h : p a
    · simp [h]
      omega
    · simp [h]

theorem rowColViols_param (limits : List (List Char × LimitBound)) (di : Nat)
    (cols : List (List Char)) (r : List Val) (j : Nat) :
    ∀ v ∈ rowColViols limits di cols r j, v.param = cols.getD j [] := by
  intro v hv
  unfold rowColViols at hv
  cases hlk : lookupA limits (cols.getD j []) with
  | none =>
    rw [hlk] at hv
    cases hv
  | some b =>
    rw [hlk] at hv
    dsimp only at hv
    cases hnum : to_numeric (valAt r j) with
    | none =>
      rw [hnum] at hv
      cases hv
    | some q =>
      rw [hnum] at hv
      dsimp only at hv
      rcases List.mem_append.mp hv with h1 | h2
      · cases hmx : b.max with
        | none =>
          rw [hmx] at h1
          cases h1
        | some mx =>
          rw [hmx] at h1
          dsimp only at h1
          by_cases hlt : mx < q
          · rw [if_pos hlt] at h1
            rcases List.mem_singleton.mp h1 with rfl
            rfl
          · rw [if_neg hlt] at h1
            cases h1
      · cases hmn : b.min with
        | none =>
          rw [hmn] at h2
          cases h2
        | some mn =>
          rw [hmn] at h2
          dsimp only at h2
          by_cases hlt : q < mn
          · rw [if_pos hlt] at h2
            rcases List.mem_singleton.mp h2 with rfl
            rfl
          · rw [if_neg hlt] at h2
            cases h2

theorem countP_rowColViols_max (limits : List (List Char × LimitBound))
    (di : Nat) (cols : List (List Char)) (r : List Val) (j : Nat)
    (b : LimitBound) (hb : lookupA limits (cols.getD j []) = some b) :
    (rowColViols limits di cols r j).countP (isMaxFor (cols.getD j [])) =
      if maxViolB b (to_numeric (valAt r j)) then 1 else 0 := by
  unfold rowColViols maxViolB
  rw [hb]
  dsimp only
  cases hnum : to_numeric (valAt r j) with
  | none => cases b.max <;> rfl
  | some q =>
    dsimp only
    cases hmx : b.max with
    | none =>
      cases hmn : b.min with
      | none => rfl
      | some mn => by_cases hlt : q < mn <;> simp [isMaxFor, hlt]
    | some mx =>
      by_cases hlt : mx < q
      · cases hmn : b.min with
        | none => simp [isMaxFor, hlt]
        | some mn => by_cases hlt2 : q < mn <;> simp [isMaxFor, hlt, hlt2]
      · cases hmn : b.min with
        | none => simp [isMaxFor, hlt]
        | some mn => by_cases hlt2 : q < mn <;> simp [isMaxFor, hlt, hlt2]

theorem countP_rowColViols_min (limits : List (List Char × LimitBound))
    (di : Nat) (cols : List (List Char)) (r : List Val) (j : Nat)
    (b : LimitBound) (hb : lookupA limits (cols.getD j []) = some b) :
    (rowColViols limits di cols r j).countP (isMinFor (cols.getD j [])) =
      if minViolB b (to_numeric (valAt r j)) then 1 else 0 := by
  unfold rowColViols minViolB
  rw [hb]
  dsimp only
  cases hnum : to_numeric (valAt r j) with
  | none => cases b.min <;> rfl
  | some q =>
    dsimp only
    cases hmn : b.min with
    | none =>
      cases hmx : b.max with
      | none => rfl
      | some mx => by_cases hlt : mx < q <;> simp [isMinFor, hlt]
    | some mn =>
      by_cases hlt : q < mn
      · cases hmx : b.max with
        | none => simp [isMinFor, hlt]
        | some mx => by_cases hlt2 : mx < q <;> simp [isMinFor, hlt, hlt2]
      · cases hmx : b.max with
        | none => simp [isMinFor, hlt]
        | some mx => by_cases hlt2 : mx < q <;> simp [isMinFor, hlt, hlt2]

theorem getD_eq_getElem_of_lt (cols : List (List Char)) (k : Nat)
    (hk : k < cols.length) : cols.getD k [] = cols[k] := by
  rw [List.getD_eq_getElem?_getD, List.getElem?_eq_getElem hk]
  rfl

theorem countP_rowViols_zero (limits : List (List Char × LimitBound))
    (di : Nat) (cols : List (List Char)) (r : List Val) (j : Nat)
    (hj : j < cols.length) (hnd : cols.Nodup) (p : Violation → Bool)
    (hp : ∀ v : Violation, v.param ≠ cols.getD j [] → p v = false) :
    ∀ k, k < cols.length → k ≠ j →
      (rowColViols limits di cols r k).countP p = 0 := by
  intro k hk hkj
  apply List.countP_eq_zero.mpr
  intro v hv
  have hpk := rowColViols_param limits di cols r k v hv
  have hne2 : v.param ≠ cols.getD j [] := by
    rw [hpk, getD_eq_getElem_of_lt cols k hk, getD_eq_getElem_of_lt cols j hj]
    intro he
    exact hkj ((hnd.getElem_inj_iff).mp he)
  rw [hp v hne2]
  exact Bool.false_ne_true

theorem countP_rowViols_max (limits : List (List Char × LimitBound))
    (di : Nat) (cols : List (List Char)) (r : List Val) (j : Nat)
    (b : LimitBound) (hj : j < cols.length) (hnd : cols.Nodup)
    (hb : lookupA limits (cols.getD j []) = some b) :
    (rowViols limits di cols r).countP (isMaxFor (cols.getD j [])) =
      if maxViolB b (to_numeric (valAt r j)) then 1 else 0 := by
  unfold rowViols
  rw [countP_flatMap]
  rw [sum_map_range_single _ cols.length j hj
    (countP_rowViols_zero limits di cols r j hj hnd _
      (fun v hv => by unfold isMaxFor; rw [decide_eq_false hv]; rfl))]
  exact countP_rowColViols_max limits di cols r j b hb

theorem countP_rowViols_min (limits : List (List Char × LimitBound))
    (di : Nat) (cols : List (List Char)) (r : List Val) (j : Nat)
    (b : LimitBound) (hj : j < cols.length) (hnd : cols.Nodup)
    (hb : lookupA limits (cols.getD j []) = some b) :
    (rowViols limits di cols r).countP (isMinFor (cols.getD j [])) =
      if minViolB b (to_numeric (valAt r j)) then 1 else 0 := by
  unfold rowViols
  rw [countP_flatMap]
  rw [sum_map_range_single _ cols.length j hj
    (countP_rowViols_zero limits di cols r j hj hnd _
      (fun v hv => by unfold isMinFor; rw [decide_eq_false hv]; rfl))]
  exact countP_rowColViols_min limits di cols r j b hb

theorem check_limits_count_max (t : Table)
    (limits : List (List Char × LimitBound)) (j : Nat) (b : LimitBound)
    (hj : j < t.cols.length) (hnd : t.cols.Nodup)
    (hb : lookupA limits (t.cols.getD j []) = some b) :
    (check_limits t limits).countP (isMaxFor (t.cols.getD j [])) =
      t.rows.countP fun r => maxViolB b (to_numeric (valAt r j)) := by
  unfold check_limits
  rw [countP_flatMap, countP_eq_sum_ind]
  congr 1
  apply List.map_congr_left
  intro r _
  exact countP_rowViols_max limits (dateIdxT t) t.cols r j b hj hnd hb

theorem check_limits_count_min (t : Table)
    (limits : List (List Char × LimitBound)) (j : Nat) (b : LimitBound)
    (hj : j < t.cols.length) (hnd : t.cols.Nodup)
    (hb : lookupA limits (t.cols.getD j []) = some b) :
    (check_limits t limits).countP (isMinFor (t.cols.getD j [])) =
      t.rows.countP fun r => minViolB b (to_numeric (valAt r j)) := by
  unfold check_limits
  rw [countP_flatMap, countP_eq_sum_ind]
  congr 1
  apply List.map_congr_left
  intro r _
  exact countP_rowViols_min limits (dateIdxT t) t.cols r j b hj hnd hb

theorem check_limits_bound_values (t : Table)
    (limits : List (List Char × LimitBound)) (j : Nat) (b : LimitBound)
    (hj : j < t.cols.length) (hnd : t.cols.Nodup)
    (hb : lookupA limits (t.cols.getD j []) = some b) :
    ∀ viol ∈ check_limits t limits, viol.param = t.cols.getD j [] →
      (viol.crossedMax = true →
        b.max = some viol.bound ∧ viol.bound < viol.observed) ∧
      (viol.crossedMax = false →
        b.min = some viol.bound ∧ viol.observed < viol.bound) := by
  intro viol hviol hparam
  unfold check_limits at hviol
  obtain ⟨r, hr, hv2⟩ := List.mem_flatMap.mp hviol
  unfold rowViols at hv2
  obtain ⟨k, hk, hv3⟩ := List.mem_flatMap.mp hv2
  rw [List.mem_range] at hk
  have hpk := rowColViols_param limits (dateIdxT t) t.cols r k viol hv3
  have hkj : k = j := by
    rw [hparam] at hpk
    rw [getD_eq_getElem_of_lt t.cols k hk, getD_eq_getElem_of_lt t.cols j hj]
      at hpk
    exact ((hnd.getElem_inj_iff).mp hpk).symm
  rw [hkj] at hv3
  unfold rowColViols at hv3
  rw [hb] at hv3
  dsimp only at hv3
  cases hnum : to_numeric (valAt r j) with
  | none =>
    rw [hnum] at hv3
    cases hv3
  | some q =>
    rw [hnum] at hv3
    dsimp only at hv3
    rcases List.mem_append.mp hv3 with h1 | h2
    · cases hmx : b.max with
      | none =>
        rw [hmx] at h1
        cases h1
      | some mx =>
        rw [hmx] at h1
        dsimp only at h1
        by_cases hlt : mx < q
        · rw [if_pos hlt] at h1
          rcases List.mem_singleton.mp h1 with rfl
          exact ⟨fun _ => ⟨rfl, hlt⟩, fun hcm => nomatch hcm⟩
        · rw [if_neg hlt] at h1
          cases h1
    · cases hmn : b.min with
      | none =>
        rw [hmn] at h2
        cases h2
      | some mn =>
        rw [hmn] at h2
        dsimp only at h2
        by_cases hlt : q < mn
        · rw [if_pos hlt] at h2
          rcases List.mem_singleton.mp h2 with rfl
          refine ⟨?_, ?_⟩
          · intro hcm
            exact nomatch hcm
          · intro hcm2
            exact ⟨rfl, hlt⟩
        · rw [if_neg hlt] at h2
          cases h2

/-- C1: for every table and limit map, and every column of the table that has
an entry in the limit map: the checker produces as many max-violations for the
column as there are rows whose numerically-coerced value strictly exceeds the
max bound (when set), as many min-violations as rows whose coerced value is
strictly below the min bound (when set), and every violation for the column
carries the crossed bound's value and an observed value strictly beyond it. -/
theorem check_limits_spec (t : Table) (limits : List (List Char × LimitBound))
    (j : Nat) (b : LimitBound) (hj : j < t.cols.length) (hnd : t.cols.Nodup)
    (hb : lookupA limits (t.cols.getD j []) = some b) :
    ((check_limits t limits).countP (isMaxFor (t.cols.getD j [])) =
      t.rows.countP fun r => maxViolB b (to_numeric (valAt r j))) ∧
    ((check_limits t limits).countP (isMinFor (t.cols.getD j [])) =
      t.rows.countP fun r => minViolB b (to_numeric (valAt r j))) ∧
    (∀ viol ∈ check_limits t limits, viol.param = t.cols.getD j [] →
      (viol.crossedMax = true →
        b.max = some viol.bound ∧ viol.bound < viol.observed) ∧
      (viol.crossedMax = false →
        b.min = some viol.bound ∧ viol.observed < viol.bound)) :=
  ⟨check_limits_count_max t limits j b hj hnd hb,
   check_limits_count_min t limits j b hj hnd hb,
   check_limits_bound_values t limits j b hj hnd hb⟩

/-- The limit map `pH ↦ {min: 6.5, max: 8.5}` of the C1 witness. -/
def limsViol : List (List Char × LimitBound) :=
  [(colPh, ⟨some (13 / 2), some (17 / 2)⟩)]

/-- A one-row table with pH = 9.0. -/
def tPh9 : Table := ⟨[DATEkey, colPh], [[Val.vts ⟨1, 0⟩, Val.vnum 9]]⟩

/-- A one-row table with pH = 5.0. -/
def tPh5 : Table := ⟨[DATEkey, colPh], [[Val.vts ⟨1, 0⟩, Val.vnum 5]]⟩

/-- A one-row table with pH = 7.0. -/
def tPh7 : Table := ⟨[DATEkey, colPh], [[Val.vts ⟨1, 0⟩, Val.vnum 7]]⟩

/-- Witness for C1: under the limit `{min: 6.5, max: 8.5}`, a pH of 9.0 yields
exactly one max-violation, a pH of 5.0 exactly one min-violation, and a pH of
7.0 yields none. -/
theorem check_limits_spec_witness :
    (check_limits tPh9 limsViol).countP (isMaxFor (tPh9.cols.getD 1 [])) = 1 ∧
    (check_limits tPh5 limsViol).countP (isMinFor (tPh5.cols.getD 1 [])) = 1 ∧
    (check_limits tPh7 limsViol).countP (isMaxFor (tPh7.cols.getD 1 [])) = 0 ∧
    (check_limits tPh7 limsViol).countP (isMinFor (tPh7.cols.getD 1 [])) = 0 := by
  refine ⟨?_, ?_, ?_, ?_⟩
  · rw [(check_limits_spec tPh9 limsViol 1 ⟨some (13 / 2), some (17 / 2)⟩
      (by decide) (by decide) (by with_unfolding_all decide)).1]
    with_unfolding_all decide
  · rw [(check_limits_spec tPh5 limsViol 1 ⟨some (13 / 2), some (17 / 2)⟩
      (by decide) (by decide) (by with_unfolding_all decide)).2.1]
    with_unfolding_all decide
  · rw [(check_limits_spec tPh7 limsViol 1 ⟨some (13 / 2), some (17 / 2)⟩
      (by decide) (by decide) (by with_unfolding_all decide)).1]
    with_unfolding_all decide
  · rw [(check_limits_spec tPh7 limsViol 1 ⟨some (13 / 2), some (17 / 2)⟩
      (by decide) (by decide) (by with_unfolding_all decide)).2.1]
    with_unfolding_all decide

/-! ## process_file error path (src/app.py lines 89-152) -/

/-- The structural load failure: the raw source could not be parsed as tabular
data; carries the underlying cause. -/
structure SourceFormatError where
  cause : List Char
deriving DecidableEq

/-- `process_file` (src/app.py lines 89-152): parse the source into a raw
grid (pandas `read_csv` / `read_excel`, library code modelled as an `Except`
input whose error is the underlying cause), then detect the header row,
extract the limit map and load the table; a structural parse failure is
caught (`except Exception as e`) and reported to the caller with its cause
(`st.error(...); return None, None`), producing no table and no limit map. -/
def process_file (readGrid : Except (List Char) (List (List Val)))
    (toDT : Val → Option TS) :
    Except SourceFormatError (Table × List (List Char × LimitBound)) :=
  match readGrid with
  | .error e => .error ⟨e⟩
  | .ok raw =>
    .ok (load_table toDT raw (header_idx raw),
      extracted_limits raw (header_idx raw))

/-- C7: when the source cannot be parsed as tabular data at all, `process_file`
fails with a `SourceFormatError` carrying the underlying cause, and returns no
result (the failure is reported to the caller, not retried or converted into a
table). -/
theorem process_file_error (e : List Char) (toDT : Val → Option TS) :
    process_file (.error e) toDT = .error ⟨e⟩ ∧
    ∀ res : Table × List (List Char × LimitBound),
      process_file (.error e) toDT ≠ .ok res :=
  ⟨rfl, fun _ h => nomatch h⟩

/-- An example underlying cause text. -/
def cCause : List Char := "bad encoding".data

/-- Witness for C7 at a concrete failure cause. -/
theorem process_file_error_witness :
    process_file (.error cCause) to_datetime_spec = .error ⟨cCause⟩ ∧
    process_file (.error cCause) to_datetime_spec ≠ .ok (tEmpty, []) :=
  ⟨(process_file_error cCause to_datetime_spec).1,
   (process_file_error cCause to_datetime_spec).2 (tEmpty, [])⟩

/-- Cell text `7`. -/
def c7 : List Char := "7".data

/-- Cell text `123`, a day number in the modelled date notation. -/
def cDay123 : List Char := "123".data

/-- A concrete grid: header row `Date, pH` and one data row. -/
def wGridD : List (List Val) :=
  [[Val.vstr cDate, Val.vstr cpH], [Val.vstr cDay123, Val.vstr c7]]

/-- Witness for C5: the concrete loaded table is sorted by date and its (only)
row has a coerced date. -/
theorem load_table_spec_witness :
    (load_table to_datetime_spec wGridD 0).rows.Pairwise
      (fun r1 r2 => rowLe (dateIdx wGridD 0) r1 r2 = true) ∧
    isTS (valAt [Val.vts ⟨123, 0⟩, Val.vstr c7] (dateIdx wGridD 0)) = true :=
  ⟨(load_table_spec to_datetime_spec wGridD 0).2,
   (load_table_spec to_datetime_spec wGridD 0).1
     [Val.vts ⟨123, 0⟩, Val.vstr c7] (by with_unfolding_all decide)⟩

/-- Witness for C6: the concrete loaded row carries a pure calendar date. -/
theorem load_table_calendar_dates_witness :
    ∃ d : Nat, valAt [Val.vts ⟨123, 0⟩, Val.vstr c7] (dateIdx wGridD 0) =
      Val.vts ⟨d, 0⟩ :=
  (load_table_calendar_dates wGridD 0).2
    [Val.vts ⟨123, 0⟩, Val.vstr c7] (by with_unfolding_all decide)

end WaterReport
